import Mathlib

/-!
Verification of the sliding-tile (N-puzzle) solver in `src/main.c`.

The C program's puzzle state is a flat array `int state[n*n]`, modelled here
as `List Int`; the blank index is a C `int` that is in `[0, n*n)` at every
call site, modelled as `Nat`.  Functions that mutate through pointers are
modelled as functions returning the new value; a C function returning
`false` with no mutation is modelled as returning `none`.  The C `while`
and recursive loops whose termination is not structural are given an
explicit fuel argument that is always sufficient at the call sites
(`siftUp` runs at most `idx` times since the index at least halves,
`siftDown` at most `size` times since the index strictly grows, and the
A* loop gets its fuel from the caller).  Machine arithmetic: the 64-bit
hash is computed on `Nat` with explicit `% 2^64`; C `int` row/column
arithmetic that can go negative uses `Int` with C truncated
division/remainder (`Int.tdiv`/`Int.tmod`).
-/

namespace Puzzle


/-! ### PuzzleState: moves (src/main.c lines 359-392, 485-498) -/

/-- Common tail of `apply_move` (src/main.c lines 382-391): bounds check on
the blank's target row/column, then swap of the blank with the tile at the
target flat index.  `none` models `return false` with no mutation. -/
def apply_at (state : List Int) (n blank : Nat) (new_row new_col : Int) :
    Option (List Int × Nat) :=
  if new_row < 0 ∨ (n : Int) ≤ new_row ∨ new_col < 0 ∨ (n : Int) ≤ new_col then
    none
  else
    let new_index : Nat := new_row.toNat * n + new_col.toNat
    some ((state.set new_index (-1)).set blank (state.getD new_index 0), new_index)

/-- Embeds `apply_move` (src/main.c lines 359-392).  The switch over the
move character computes the target row/column (an unrecognized character
returns `false`), then the bounds check and swap of `apply_at` run. -/
def apply_move (state : List Int) (n : Nat) (blank_index : Nat) (move : Char) :
    Option (List Int × Nat) :=
  let row : Int := (blank_index / n : Nat)
  let col : Int := (blank_index % n : Nat)
  if move = 'U' then apply_at state n blank_index (row - 1) col
  else if move = 'D' then apply_at state n blank_index (row + 1) col
  else if move = 'L' then apply_at state n blank_index row (col - 1)
  else if move = 'R' then apply_at state n blank_index row (col + 1)
  else none

/-- Embeds `opposite_move` (src/main.c lines 485-498); `'\0'` (here
`Char.ofNat 0`) for an unrecognized character. -/
def opposite_move (move : Char) : Char :=
  if move = 'U' then 'D'
  else if move = 'D' then 'U'
  else if move = 'L' then 'R'
  else if move = 'R' then 'L'
  else Char.ofNat 0

/-! ### PuzzleState: goal test and diagnostics (src/main.c lines 190-225, 500-507) -/

/-- Loop of `is_goal` (src/main.c lines 500-507): every cell `i < len-1`
holds value `i`, and the last cell holds `-1`.  The C code reads
`state[len-1]` even when `len = 0` (undefined behavior); the embedding
returns `false` on the empty list, and all claims assume a nonempty grid. -/
def igGo : Nat → List Int → Bool
  | _, [] => false
  | _, [v] => v = -1
  | i, v :: w :: rest => (v = (i : Int)) && igGo (i + 1) (w :: rest)

/-- `is_goal(state, len)` with `len` equal to the list length, as at every
call site in the C program. -/
def is_goal (state : List Int) : Bool :=
  igGo 0 state

/-- Loop body of `count_misplaced` (src/main.c lines 190-208): `len` is the
total length, `i` the flat index of the head of the remaining list. -/
def cmGo (len : Nat) : Nat → List Int → Nat
  | _, [] => 0
  | i, v :: rest =>
    (if v = -1 then (if i ≠ len - 1 then 1 else 0)
     else if i = len - 1 then 1
     else if v ≠ (i : Int) then 1 else 0) + cmGo len (i + 1) rest

/-- Embeds `count_misplaced(state, len)` with `len` the list length, as at
every call site in the C program. -/
def count_misplaced (state : List Int) : Nat :=
  cmGo state.length 0 state

/-- Per-tile term of `manhattan_distance`: tile value `value` sitting at
flat index `idx` on an `n × n` board.  `goal_row = value / n`,
`goal_col = value % n` use C `int` division (truncation toward zero,
`Int.tdiv`/`Int.tmod`); `cur_row`/`cur_col` divide the nonnegative index. -/
def tile_dist (value : Int) (idx n : Nat) : Int :=
  |Int.tdiv value n - (idx / n : Nat)| + |Int.tmod value n - (idx % n : Nat)|

/-- One iteration of the `manhattan_distance` loop: a blank cell (`-1`)
contributes 0, any other value its `tile_dist`. -/
def mdTerm (n idx : Nat) (v : Int) : Int :=
  if v = -1 then 0 else tile_dist v idx n

/-- Loop of `manhattan_distance` (src/main.c lines 210-225): `idx` is the
flat index of the head of the remaining list. -/
def mdGo (n : Nat) : Nat → List Int → Int
  | _, [] => 0
  | idx, v :: rest => mdTerm n idx v + mdGo n (idx + 1) rest

/-- Embeds `manhattan_distance` (src/main.c lines 210-225). -/
def manhattan_distance (state : List Int) (n : Nat) : Int :=
  mdGo n 0 state

/-- The canonical goal layout the program's `is_goal` tests for: cell `i`
holds `i` for `i < n*n - 1`, and the last cell holds the blank `-1`. -/
def goal_layout (n : Nat) : List Int :=
  (List.range (n * n)).map (fun i => if i = n * n - 1 then -1 else (i : Int))

/-! ### Fingerprint hash (src/main.c lines 37-49) -/

/-- `2^64`, the modulus of C `uint64_t` arithmetic. -/
def U64 : Nat := 18446744073709551616

/-- `(uint64_t)(state[i] + 2)` of `fnv1a_hash`: the `int` sum `v + 2` cast
to `uint64_t` (two's-complement wrap for negative values). -/
def val64 (v : Int) : Nat := ((v + 2) % (U64 : Int)).toNat

/-- One iteration of `fnv1a_hash` (src/main.c lines 40-43):
`hash ^= value + 0x9e3779b97f4a7c15 + (hash << 6) + (hash >> 2);
hash *= 1099511628211`, all on `uint64_t`. -/
def fnv1aStep (hash : Nat) (value : Nat) : Nat :=
  ((hash ^^^ ((value + 0x9e3779b97f4a7c15 + hash * 64 + hash / 4) % U64)) *
    1099511628211) % U64

/-- Fold of `fnv1aStep` over the grid cells. -/
def fnv1aGo : Nat → List Int → Nat
  | hash, [] => hash
  | hash, v :: rest => fnv1aGo (fnv1aStep hash (val64 v)) rest

/-- Embeds `fnv1a_hash` (src/main.c lines 37-45), seed
`1469598103934665603`. -/
def fnv1a_hash (state : List Int) : Nat :=
  fnv1aGo 1469598103934665603 state

/-! ### VisitedSet (src/main.c lines 25-35, 139-188) -/

/-- Embeds `VisitedEntry` (src/main.c lines 25-30): stored hash, best
known path cost `g`, and the grid contents (the C struct holds a pointer
to them). -/
structure VisitedEntry where
  hash : Nat
  g : Int
  state : List Int
deriving DecidableEq

/-- Embeds `VisitedSet` (src/main.c lines 32-35): the C bucket array is
modelled as a function from bucket index to its collision chain. -/
structure VisitedSet where
  bucket_count : Nat
  buckets : Nat → List VisitedEntry

/-- The entry test of `visited_should_skip` (src/main.c line 152):
`entry->hash == hash && states_equal(entry->state, state, len)`.
`states_equal` is `memcmp` over `len` ints, i.e. list equality here, since
every stored and queried grid has length `len`. -/
def entry_matches (e : VisitedEntry) (hash : Nat) (state : List Int) : Prop :=
  e.hash = hash ∧ e.state = state

instance (e : VisitedEntry) (hash : Nat) (state : List Int) :
    Decidable (entry_matches e hash state) := by
  unfold entry_matches
  infer_instance

/-- The chain walk of `visited_should_skip` (src/main.c lines 151-160):
returns the skip flag and the possibly updated chain (the C code updates
`entry->g` in place when a cheaper path is found). -/
def skipChain (hash : Nat) (state : List Int) (g : Int) :
    List VisitedEntry → Bool × List VisitedEntry
  | [] => (false, [])
  | e :: rest =>
    if entry_matches e hash state then
      if e.g ≤ g then (true, e :: rest)
      else (false, { e with g := g } :: rest)
    else
      let r := skipChain hash state g rest
      (r.1, e :: r.2)

/-- Embeds `visited_should_skip` (src/main.c lines 148-162), returning the
flag and the updated table (mutation through the pointer). -/
def visited_should_skip (set : VisitedSet) (hash : Nat) (state : List Int) (g : Int) :
    Bool × VisitedSet :=
  let idx := hash % set.bucket_count
  let r := skipChain hash state g (set.buckets idx)
  (r.1, { set with buckets := fun i => if i = idx then r.2 else set.buckets i })

/-- Embeds `visited_add` (src/main.c lines 164-176): prepends a fresh entry
to the bucket chain. -/
def visited_add (set : VisitedSet) (hash : Nat) (state : List Int) (g : Int) :
    VisitedSet :=
  let idx := hash % set.bucket_count
  { set with
    buckets := fun i => if i = idx then ⟨hash, g, state⟩ :: set.buckets i else set.buckets i }

/-- An entry is recorded in the table: it sits in one of the buckets. -/
def tableMem (e : VisitedEntry) (set : VisitedSet) : Prop :=
  ∃ i, i < set.bucket_count ∧ e ∈ set.buckets i

/-- Well-formedness maintained by the program: nonempty bucket array, every
entry stores the hash of its own grid and sits in the bucket selected by
that hash (`visited_add` is only called with `hash = fnv1a_hash state`). -/
def tableWF (set : VisitedSet) : Prop :=
  0 < set.bucket_count ∧
  ∀ i, i < set.bucket_count → ∀ e, e ∈ set.buckets i →
    e.hash = fnv1a_hash e.state ∧ e.hash % set.bucket_count = i

/-! ### Target-cell vocabulary for the apply_move contract -/

/-- The blank's target row/column computed by the switch of `apply_move`
(src/main.c lines 360-377), for the four recognized move characters. -/
def target_cell (n blank : Nat) (move : Char) : Int × Int :=
  let row : Int := (blank / n : Nat)
  let col : Int := (blank % n : Nat)
  if move = 'U' then (row - 1, col)
  else if move = 'D' then (row + 1, col)
  else if move = 'L' then (row, col - 1)
  else (row, col + 1)

/-- A row/column pair lies on the `n × n` board. -/
def cell_on_board (rc : Int × Int) (n : Nat) : Prop :=
  0 ≤ rc.1 ∧ rc.1 < (n : Int) ∧ 0 ≤ rc.2 ∧ rc.2 < (n : Int)

/-- Flat index of an on-board row/column pair
(`new_index = new_row * n + new_col`, src/main.c line 386). -/
def cell_index (rc : Int × Int) (n : Nat) : Nat :=
  rc.1.toNat * n + rc.2.toNat

/-! ### Textual boundary: read_ini, read_moves, main (src/main.c lines 240-357, 588-620) -/

/-- Blank scan of `read_ini` (src/main.c lines 283-285): `blank_index` is
overwritten at every `-1`, so the last occurrence wins; `none` models the
`-1` sentinel (blank not found). -/
def lastBlankGo : Nat → Option Nat → List Int → Option Nat
  | _, acc, [] => acc
  | i, acc, v :: rest => lastBlankGo (i + 1) (if v = -1 then some i else acc) rest

/-- Index of the last `-1` in the parsed values, as tracked by `read_ini`. -/
def lastBlank (values : List Int) : Option Nat :=
  lastBlankGo 0 none values

/-- Embeds the validation logic of `read_ini` (src/main.c lines 240-307)
after text tokenization: `n` is the `atoi` of the first line and `values`
the `atoi`s of the comma-separated tokens of the remaining lines.  The C
checks, in order: `n <= 0` (line 255), more than `n*n` values (line 275),
fewer than `n*n` values (line 292), no blank found (line 297). -/
def read_ini (n : Int) (values : List Int) : Option (List Int × Int × Nat) :=
  if n ≤ 0 then none
  else
    let len := (n * n).toNat
    if len < values.length then none
    else if values.length ≠ len then none
    else
      match lastBlank values with
      | none => none
      | some b => some (values, n, b)

/-- Leading `' '`/`'\t'` skip of `read_moves` (src/main.c lines 326-328). -/
def dropWs : List Char → List Char
  | [] => []
  | c :: rest => if c = ' ' ∨ c = '\t' then dropWs rest else c :: rest

/-- One line of `read_moves` (src/main.c lines 325-345): after skipping
leading blanks, an empty line or end-of-line character is ignored, a
`U`/`D`/`L`/`R` first character is collected, anything else is ignored. -/
def lineMove (line : List Char) : Option Char :=
  match dropWs line with
  | [] => none
  | c :: _ =>
    if c = '\n' ∨ c = '\r' then none
    else if c = 'U' ∨ c = 'D' ∨ c = 'L' ∨ c = 'R' then some c
    else none

/-- The move characters `read_moves` collects from the file's lines. -/
def movesOf (lines : List (List Char)) : List Char :=
  lines.filterMap lineMove

/-- Embeds `read_moves` (src/main.c lines 309-357): `none` for a missing
file, and `false` (here `none`) when no move was collected. -/
def read_moves (fileLines : Option (List (List Char))) : Option (List Char) :=
  match fileLines with
  | none => none
  | some lines =>
    let moves := movesOf lines
    if moves = [] then none else some moves

/-- Observable outcome of `main` (src/main.c lines 588-620): parse failure
(`EXIT_FAILURE` from `read_ini`), the "Invalid move at line %zu" failure
with the reported number, the printed final grid and misplaced count after
applying a move file, or the hand-off to `solve_puzzle`. -/
inductive MainResult where
  | parseFailure
  | invalidMove (line : Nat)
  | appliedMoves (state : List Int) (misplaced : Nat)
  | solving (state : List Int) (n : Nat) (blank : Nat)
deriving DecidableEq

/-- The move-application loop of `main` (src/main.c lines 600-611): `i` is
the 0-based index into the collected moves; a failing `apply_move` reports
`i + 1` and aborts. -/
def applyLoop : List Int → Nat → Nat → List Char → Nat → MainResult
  | state, _, _, [], _ => .appliedMoves state (count_misplaced state)
  | state, n, blank, mv :: rest, i =>
    match apply_move state n blank mv with
    | none => .invalidMove (i + 1)
    | some (s', b') => applyLoop s' n b' rest (i + 1)

/-- Embeds the control flow of `main` (src/main.c lines 588-620) over the
parse results. -/
def main_model (ini : Option (List Int × Int × Nat))
    (moveLines : Option (List (List Char))) : MainResult :=
  match ini with
  | none => .parseFailure
  | some (state, n, blank) =>
    match read_moves moveLines with
    | some moves => applyLoop state n.toNat blank moves 0
    | none => .solving state n.toNat blank

/-- 1-based file line number of the `k`-th (0-based) recognized move in the
move file — the number the spec says an invalid move is reported with. -/
def move_file_lineGo : List (List Char) → Nat → Nat → Option Nat
  | [], _, _ => none
  | l :: rest, k, lineno =>
    match lineMove l with
    | some _ => if k = 0 then some lineno else move_file_lineGo rest (k - 1) (lineno + 1)
    | none => move_file_lineGo rest k (lineno + 1)

/-- 1-based file line of the `k`-th recognized move, counting lines from 1. -/
def move_file_line (lines : List (List Char)) (k : Nat) : Option Nat :=
  move_file_lineGo lines k 1

/-! ### A* search (src/main.c lines 10-23, 51-137, 509-586) -/

/-- Embeds `Node` (src/main.c lines 10-17).  The heuristic field is named
`hval` because a bare `h` collides with Lean conventions. -/
inductive Node where
  | mk (state : List Int) (blank_index : Nat) (g : Int) (h : Int)
      (parent : Option Node) (move : Char)

def Node.state : Node → List Int
  | .mk s _ _ _ _ _ => s

def Node.blank_index : Node → Nat
  | .mk _ b _ _ _ _ => b

def Node.g : Node → Int
  | .mk _ _ g _ _ _ => g

def Node.hval : Node → Int
  | .mk _ _ _ h _ _ => h

def Node.parent : Node → Option Node
  | .mk _ _ _ _ p _ => p

def Node.move : Node → Char
  | .mk _ _ _ _ _ m => m

/-- Embeds `node_priority` (src/main.c lines 63-65): `f = g + h`. -/
def node_priority (node : Node) : Int :=
  node.g + node.hval

/-- Placeholder for `List.getD` at indices that are always in range at the
call sites (C reads the array directly). -/
def dummyNode : Node := .mk [] 0 0 0 none (Char.ofNat 0)

/-- The heap ordering used by both sift directions (src/main.c lines 87-88,
113-115, 122-124): smaller `f = g + h` first, ties broken by smaller `h`. -/
def heap_less (a b : Node) : Bool :=
  decide (node_priority a < node_priority b) ||
    (decide (node_priority a = node_priority b) && decide (a.hval < b.hval))

/-- Sift-up loop of `heap_push` (src/main.c lines 83-94).  The fuel is the
heap size, always enough: the index at least halves every iteration. -/
def siftUp : Nat → List Node → Nat → List Node
  | 0, heap, _ => heap
  | fuel + 1, heap, idx =>
    if idx = 0 then heap
    else
      let parent := (idx - 1) / 2
      let cur := heap.getD idx dummyNode
      let par := heap.getD parent dummyNode
      if heap_less cur par then
        siftUp fuel ((heap.set idx par).set parent cur) parent
      else heap

/-- Embeds `heap_push` (src/main.c lines 67-95): append at the end, then
sift up. -/
def heap_push (heap : List Node) (node : Node) : List Node :=
  let heap' := heap ++ [node]
  siftUp heap'.length heap' (heap'.length - 1)

/-- Sift-down loop of `heap_pop` (src/main.c lines 105-134).  The fuel is
the heap size, always enough: the index strictly grows every iteration. -/
def siftDown : Nat → List Node → Nat → List Node
  | 0, heap, _ => heap
  | fuel + 1, heap, idx =>
    let size := heap.length
    let left := idx * 2 + 1
    let right := idx * 2 + 2
    let smallest1 :=
      if left < size ∧ heap_less (heap.getD left dummyNode) (heap.getD idx dummyNode) then
        left
      else idx
    let smallest :=
      if right < size ∧
          heap_less (heap.getD right dummyNode) (heap.getD smallest1 dummyNode) then
        right
      else smallest1
    if smallest ≠ idx then
      let a := heap.getD idx dummyNode
      let b := heap.getD smallest dummyNode
      siftDown fuel ((heap.set idx b).set smallest a) smallest
    else heap

/-- Embeds `heap_pop` (src/main.c lines 97-137): return the root, move the
last element to the root, sift down over the shrunk heap. -/
def heap_pop (heap : List Node) : Option Node × List Node :=
  match heap with
  | [] => (none, [])
  | top :: _ =>
    let size' := heap.length - 1
    if size' = 0 then (some top, [])
    else
      let last := heap.getD size' dummyNode
      let heap' := (heap.set 0 last).take size'
      (some top, siftDown heap'.length heap' 0)

/-- Outcome of the fueled A* loop: goal node found, frontier exhausted
("No solution found."), or fuel ran out (the loop is still running). -/
inductive SolveResult where
  | found (goal : Node)
  | noSolution
  | outOfFuel

def SolveResult.isOutOfFuel : SolveResult → Bool
  | .outOfFuel => true
  | _ => false

def SolveResult.isNoSolution : SolveResult → Bool
  | .noSolution => true
  | _ => false

/-- The four-way expansion of the popped node (src/main.c lines 535-565):
skip the inverse of the move that created the node, copy-and-apply each
move, consult and update the visited table, push surviving children. -/
def expandGo (n : Nat) (current : Node) :
    List Char → List Node × VisitedSet → List Node × VisitedSet
  | [], acc => acc
  | mv :: rest, (open_set, visited) =>
    if current.parent.isSome ∧ mv = opposite_move current.move then
      expandGo n current rest (open_set, visited)
    else
      match apply_move current.state n current.blank_index mv with
      | none => expandGo n current rest (open_set, visited)
      | some (s', b') =>
        let g := current.g + 1
        let hash := fnv1a_hash s'
        let r := visited_should_skip visited hash s' g
        if r.1 then expandGo n current rest (open_set, r.2)
        else
          let h := manhattan_distance s' n
          let child := Node.mk s' b' g h (some current) mv
          expandGo n current rest (heap_push open_set child, visited_add r.2 hash s' g)

/-- The main loop of `solve_puzzle` (src/main.c lines 528-566) with fuel:
pop the minimum node, stop on the goal, otherwise expand and continue.
An empty frontier is the "No solution found." branch (lines 568-574). -/
def solveLoop (n : Nat) : Nat → List Node → VisitedSet → SolveResult
  | 0, _, _ => .outOfFuel
  | fuel + 1, open_set, visited =>
    match heap_pop open_set with
    | (none, _) => .noSolution
    | (some current, rest) =>
      if is_goal current.state then .found current
      else
        let acc := expandGo n current ['U', 'D', 'L', 'R'] (rest, visited)
        solveLoop n fuel acc.1 acc.2

/-- Embeds the setup of `solve_puzzle` (src/main.c lines 509-527): start
node with `g = 0`, `h = manhattan_distance`, null parent and `'\0'` move;
frontier seeded with it; visited table of 1048576 buckets seeded with the
start grid at cost 0; then the loop runs. -/
def solve_puzzle (state : List Int) (n : Nat) (blank : Nat) (fuel : Nat) : SolveResult :=
  let start_h := manhattan_distance state n
  let start := Node.mk state blank 0 start_h none (Char.ofNat 0)
  let open0 := heap_push [] start
  let visited0 := visited_add ⟨1048576, fun _ => []⟩ (fnv1a_hash state) state 0
  solveLoop n fuel open0 visited0

/-- Inversion count of a tile sequence: pairs appearing in the wrong
relative order. -/
def inversionsGo : List Int → Nat
  | [] => 0
  | v :: rest => (rest.filter (fun w => w < v)).length + inversionsGo rest

/-- Modelled from the spec: the solvability parity check of spec section
4.1, which has no implementation anywhere in src/main.c.  "computed from
inversion parity of the tile sequence (ignoring blank) and, for even n,
the blank's row distance from the bottom row.  Odd n: solvable iff
inversion count is even.  Even n: solvable iff (inversions odd) XOR
(blank's distance-from-bottom row is odd)." -/
def solvable (state : List Int) (n : Nat) (blank : Nat) : Bool :=
  let inv := inversionsGo (state.filter (fun v => v ≠ -1))
  if n % 2 = 1 then decide (inv % 2 = 0)
  else (decide (inv % 2 = 1) != decide ((((n - 1) - blank / n) % 2 = 1)))

/-- The binary-heap shape invariant of the C `MinHeap`: no element is
strictly smaller (in the `f`-then-`h` order) than its parent. -/
def heapInv (l : List Node) : Prop :=
  ∀ j, 0 < j → j < l.length → heap_less (l.getD j dummyNode) (l.getD ((j - 1) / 2) dummyNode) = false

/-- The sift-up precondition: heap shape holds everywhere except possibly
at the edge from `idx` to its parent. -/
def heapInvExceptUp (l : List Node) (idx : Nat) : Prop :=
  ∀ j, 0 < j → j < l.length → j ≠ idx →
    heap_less (l.getD j dummyNode) (l.getD ((j - 1) / 2) dummyNode) = false

/-- The sift-up auxiliary condition: the children of `idx` are already no
smaller than the parent of `idx`. -/
def siftUpAux (l : List Node) (idx : Nat) : Prop :=
  ∀ c, c < l.length → 0 < idx → (c - 1) / 2 = idx →
    heap_less (l.getD c dummyNode) (l.getD ((idx - 1) / 2) dummyNode) = false

/-- The sift-down precondition: heap shape holds at every edge except the
edges from the children of `idx` up to `idx`. -/
def heapInvExceptDown (l : List Node) (idx : Nat) : Prop :=
  ∀ j, 0 < j → j < l.length → (j - 1) / 2 ≠ idx →
    heap_less (l.getD j dummyNode) (l.getD ((j - 1) / 2) dummyNode) = false

/-- The sift-down auxiliary condition: the children of `idx` are already no
smaller than the parent of `idx`. -/
def siftDownAux (l : List Node) (idx : Nat) : Prop :=
  ∀ c, c < l.length → 0 < idx → (c - 1) / 2 = idx →
    heap_less (l.getD c dummyNode) (l.getD ((idx - 1) / 2) dummyNode) = false

/-- Executing a move list from a (grid, blank) configuration, failing when
any move fails: the exact fold `main` performs and the state graph the
searches explore. -/
def runMoves (n : Nat) : (List Int × Nat) → List Char → Option (List Int × Nat)
  | s, [] => some s
  | s, mv :: rest =>
    match apply_move s.1 n s.2 mv with
    | none => none
    | some s' => runMoves n s' rest

/-- The move labels along a node's parent chain, newest first — the walk of
`reconstruct_moves` (src/main.c lines 456-461). -/
def chainMoves : Node → List Char
  | .mk _ _ _ _ none _ => []
  | .mk _ _ _ _ (some p) m => m :: chainMoves p

/-- Embeds `reconstruct_moves` (src/main.c lines 448-471): walk the parent
chain collecting moves, then reverse into start-to-goal order. -/
def reconstruct_moves (goal : Node) : List Char :=
  (chainMoves goal).reverse

/-- A node's (grid, blank) configuration. -/
def nodePos (nd : Node) : List Int × Nat :=
  (nd.state, nd.blank_index)

/-- The configurations along a node's parent chain, newest first. -/
def chainStates : Node → List (List Int × Nat)
  | .mk s b _ _ none _ => [(s, b)]
  | .mk s b _ _ (some p) _ => (s, b) :: chainStates p

/-- A search-tree node is valid for a start configuration: its fields are
exactly what `solve_puzzle` computes — the root is the start with `g = 0`,
every child arises from its parent by a successful move with `g` one
larger, and `h` is always the Manhattan distance of the node's grid. -/
def validNode (n : Nat) (start : List Int × Nat) : Node → Prop
  | .mk s b g h none _ => (s, b) = start ∧ g = 0 ∧ h = manhattan_distance s n
  | .mk s b g h (some p) mv => validNode n start p ∧
      apply_move p.state n p.blank_index mv = some (s, b) ∧
      g = p.g + 1 ∧ h = manhattan_distance s n

/-- A well-formed puzzle configuration for an `n × n` board. -/
def gridOK (n : Nat) (s : List Int × Nat) : Prop :=
  s.1.length = n * n ∧ s.2 < n * n ∧ s.1.count (-1) = 1 ∧ s.1.getD s.2 0 = -1

/-- First entry of a collision chain matching a query, as walked by
`visited_should_skip`. -/
def firstMatch (hash : Nat) (state : List Int) : List VisitedEntry → Option VisitedEntry
  | [] => none
  | e :: rest => if entry_matches e hash state then some e else firstMatch hash state rest

/-- The cost the table currently records for a grid: the `g` of the first
matching entry of the grid's bucket — the value `visited_should_skip`
compares against and updates. -/
def recordedG (V : VisitedSet) (s : List Int) : Option Int :=
  (firstMatch (fnv1a_hash s) s (V.buckets (fnv1a_hash s % V.bucket_count))).map (fun e => e.g)


/-! ### Search-tree node validity -/

/-- Every node of the parent chain (the node itself included) has its grid
recorded in the visited table at a cost no larger than that node's `g` —
the C code records a grid in the same step that pushes its node. -/
def ancRec (V : VisitedSet) : Node → Prop
  | .mk s _ g _ none _ => ∃ r, recordedG V s = some r ∧ r ≤ g
  | .mk s _ g _ (some p) _ => (∃ r, recordedG V s = some r ∧ r ≤ g) ∧ ancRec V p

/-- The grids the search can ever store: permutations of the goal layout. -/
def stateSpace (n : Nat) : Finset (List Int) :=
  (goal_layout n).permutations.toFinset

/-- Termination weight of one grid's visited record: an unrecorded grid
weighs `S + 1`, a grid recorded at cost `r` weighs `r.toNat + 1`. -/
def weightOf (S : Nat) (o : Option Int) : Nat :=
  match o with
  | none => S + 1
  | some r => r.toNat + 1

/-- Termination potential of the visited table. -/
def phi (n : Nat) (V : VisitedSet) : Nat :=
  ∑ l ∈ stateSpace n, weightOf ((stateSpace n).card) (recordedG V l)


/-! ### Loop invariants of the A* search -/

/-- Mid-expansion frontier invariant: every recorded grid either still has
an open node no worse than its record, or is the grid of the node being
expanded (recorded exactly at its `g`) with every successor through an
already-processed move recorded within one step, or is a fully expanded
non-goal grid with all successors recorded within one step. -/
def expJ6 (n : Nat) (current : Node) (moves : List Char) (open_set : List Node)
    (V : VisitedSet) : Prop :=
  ∀ s r, recordedG V s = some r →
    (∃ nd ∈ open_set, nd.state = s ∧ nd.g ≤ r) ∨
    (s = current.state ∧ r = current.g ∧
      ∀ b mv t, mv ∉ moves → b < n * n → s.getD b 0 = -1 →
        apply_move s n b mv = some t →
        ∃ r', recordedG V t.1 = some r' ∧ r' ≤ r + 1) ∨
    (is_goal s = false ∧ ∀ b mv t, b < n * n → s.getD b 0 = -1 →
      apply_move s n b mv = some t →
      ∃ r', recordedG V t.1 = some r' ∧ r' ≤ r + 1)

/-- Invariant carried through the expansion of one popped node. -/
structure ExpInv (n : Nat) (start : List Int × Nat) (current : Node) (moves : List Char)
    (open_set : List Node) (V : VisitedSet) : Prop where
  heap : heapInv open_set
  valid : ∀ nd ∈ open_set, validNode n start nd
  nodup : ∀ nd ∈ open_set, (chainStates nd).Nodup
  anc : ∀ nd ∈ open_set, ancRec V nd
  curAnc : ancRec V current
  j6 : expJ6 n current moves open_set V

/-- Invariant at the head of every iteration of the A* loop. -/
structure Inv (n : Nat) (start : List Int × Nat) (open_set : List Node)
    (V : VisitedSet) : Prop where
  heap : heapInv open_set
  valid : ∀ nd ∈ open_set, validNode n start nd
  nodup : ∀ nd ∈ open_set, (chainStates nd).Nodup
  anc : ∀ nd ∈ open_set, ancRec V nd
  startRec : ∃ r0, recordedG V start.1 = some r0 ∧ r0 ≤ 0
  j6 : ∀ s r, recordedG V s = some r →
      (∃ nd ∈ open_set, nd.state = s ∧ nd.g ≤ r) ∨
      (is_goal s = false ∧ ∀ b mv t, b < n * n → s.getD b 0 = -1 →
        apply_move s n b mv = some t →
        ∃ r', recordedG V t.1 = some r' ∧ r' ≤ r + 1)

theorem cond_inb (n : Nat) (x y : Int) (h1 : 0 ≤ x) (h2 : x < (n : Int))
    (h3 : 0 ≤ y) (h4 : y < (n : Int)) :
    ¬(x < 0 ∨ (n : Int) ≤ x ∨ y < 0 ∨ (n : Int) ≤ y) := by omega

theorem cast_nonneg' (q : Nat) : (0 : Int) ≤ (q : Nat) := Int.natCast_nonneg q

theorem cast_lt_cast {a b : Nat} (h : a < b) : ((a : Nat) : Int) < (b : Int) := by
  exact_mod_cast h

theorem cast_pred_nonneg {q : Nat} (h : 1 ≤ q) : (0 : Int) ≤ ((q : Nat) : Int) - 1 := by omega

theorem cast_pred_lt {q n : Nat} (h : q < n) : ((q : Nat) : Int) - 1 < (n : Int) := by omega

theorem cast_succ_nonneg (q : Nat) : (0 : Int) ≤ ((q : Nat) : Int) + 1 := by omega

theorem cast_succ_lt {q n : Nat} (h : q + 1 < n) : ((q : Nat) : Int) + 1 < (n : Int) := by
  omega

theorem cast_succ_ge {q n : Nat} (h : n ≤ q + 1) : (n : Int) ≤ ((q : Nat) : Int) + 1 := by
  omega

theorem cast_zero_pred_neg {q : Nat} (h : q = 0) : ((q : Nat) : Int) - 1 < 0 := by omega

theorem toNat_cast_pred (q : Nat) : (((q : Nat) : Int) - 1).toNat = q - 1 := by omega

theorem toNat_cast_succ (q : Nat) : (((q : Nat) : Int) + 1).toNat = q + 1 := by omega

theorem toNat_cast' (q : Nat) : (((q : Nat) : Int)).toNat = q := by omega

theorem idx_up {n blank : Nat} (h1 : 1 ≤ blank / n) :
    (blank / n - 1) * n + blank % n = blank - n := by
  have key := Nat.div_add_mod blank n
  have h2 : (blank / n - 1) * n = (blank / n) * n - n := Nat.sub_one_mul _ n
  have h3 : (blank / n) * n = n * (blank / n) := Nat.mul_comm _ _
  have h4 : n * 1 ≤ n * (blank / n) := Nat.mul_le_mul_left n h1
  rw [h2, h3]
  omega

theorem idx_down {n blank : Nat} :
    (blank / n + 1) * n + blank % n = blank + n := by
  have key := Nat.div_add_mod blank n
  have e3 : (blank / n + 1) * n = n * (blank / n) + n := by ring
  rw [e3]
  omega

theorem idx_left {n blank : Nat} (h : blank % n ≠ 0) :
    (blank / n) * n + (blank % n - 1) = blank - 1 := by
  have key := Nat.div_add_mod blank n
  have e3 : (blank / n) * n = n * (blank / n) := Nat.mul_comm _ _
  rw [e3]
  omega

theorem idx_right {n blank : Nat} :
    (blank / n) * n + (blank % n + 1) = blank + 1 := by
  have key := Nat.div_add_mod blank n
  have e3 : (blank / n) * n = n * (blank / n) := Nat.mul_comm _ _
  rw [e3]
  omega

theorem down_lt_iff {n blank : Nat} (hb : blank < n * n) :
    blank + n < n * n ↔ blank / n + 1 < n := by
  have key := Nat.div_add_mod blank n
  have hr : blank % n < n := Nat.mod_lt _ (Nat.pos_of_ne_zero (by rintro rfl; simp at hb))
  constructor
  · intro h
    by_contra h'
    push_neg at h'
    have h2 := Nat.mul_le_mul_left n h'
    have e1 : n * (blank / n + 1) = n * (blank / n) + n := by ring
    rw [e1] at h2
    omega
  · intro h
    have h2 := Nat.mul_le_mul_left n (show blank / n + 2 ≤ n by omega)
    have e2 : n * (blank / n + 2) = n * (blank / n) + 2 * n := by ring
    rw [e2] at h2
    omega

theorem apply_move_U (state : List Int) (n blank : Nat) (hb : blank < n * n) :
    apply_move state n blank 'U' =
      if n ≤ blank then
        some ((state.set (blank - n) (-1)).set blank (state.getD (blank - n) 0), blank - n)
      else none := by
  have hn : 0 < n := Nat.pos_of_ne_zero (by rintro rfl; simp at hb)
  have hr : blank % n < n := Nat.mod_lt _ hn
  have hq : blank / n < n := Nat.div_lt_of_lt_mul hb
  simp only [apply_move, Char.reduceEq, reduceIte, apply_at]
  by_cases hcase : n ≤ blank
  · have hq1 : 1 ≤ blank / n := (Nat.one_le_div_iff hn).mpr hcase
    rw [if_neg (cond_inb n _ _ (cast_pred_nonneg hq1) (cast_pred_lt hq)
          (cast_nonneg' _) (cast_lt_cast hr)),
        toNat_cast_pred, toNat_cast', idx_up hq1, if_pos hcase]
  · have hq0 : blank / n = 0 := Nat.div_eq_of_lt (by omega)
    rw [if_pos (Or.inl (cast_zero_pred_neg hq0)), if_neg hcase]

theorem apply_move_D (state : List Int) (n blank : Nat) (hb : blank < n * n) :
    apply_move state n blank 'D' =
      if blank + n < n * n then
        some ((state.set (blank + n) (-1)).set blank (state.getD (blank + n) 0), blank + n)
      else none := by
  have hn : 0 < n := Nat.pos_of_ne_zero (by rintro rfl; simp at hb)
  have hr : blank % n < n := Nat.mod_lt _ hn
  have hq : blank / n < n := Nat.div_lt_of_lt_mul hb
  simp only [apply_move, Char.reduceEq, reduceIte, apply_at]
  by_cases hcase : blank + n < n * n
  · have hq1 : blank / n + 1 < n := (down_lt_iff hb).mp hcase
    rw [if_neg (cond_inb n _ _ (cast_succ_nonneg _) (cast_succ_lt hq1)
          (cast_nonneg' _) (cast_lt_cast hr)),
        toNat_cast_succ, toNat_cast', idx_down, if_pos hcase]
  · have hq1 : n ≤ blank / n + 1 := by
      by_contra h'
      exact hcase ((down_lt_iff hb).mpr (by omega))
    rw [if_pos (Or.inr (Or.inl (cast_succ_ge hq1))), if_neg hcase]

theorem apply_move_L (state : List Int) (n blank : Nat) (hb : blank < n * n) :
    apply_move state n blank 'L' =
      if blank % n ≠ 0 then
        some ((state.set (blank - 1) (-1)).set blank (state.getD (blank - 1) 0), blank - 1)
      else none := by
  have hn : 0 < n := Nat.pos_of_ne_zero (by rintro rfl; simp at hb)
  have hr : blank % n < n := Nat.mod_lt _ hn
  have hq : blank / n < n := Nat.div_lt_of_lt_mul hb
  simp only [apply_move, Char.reduceEq, reduceIte, apply_at]
  by_cases hcase : blank % n ≠ 0
  · have hr1 : 1 ≤ blank % n := Nat.one_le_iff_ne_zero.mpr hcase
    rw [if_neg (cond_inb n _ _ (cast_nonneg' _) (cast_lt_cast hq)
          (cast_pred_nonneg hr1) (cast_pred_lt hr)),
        toNat_cast', toNat_cast_pred, idx_left hcase, if_pos hcase]
  · push_neg at hcase
    rw [if_pos (Or.inr (Or.inr (Or.inl (cast_zero_pred_neg hcase)))),
        if_neg (by omega)]

theorem apply_move_R (state : List Int) (n blank : Nat) (hb : blank < n * n) :
    apply_move state n blank 'R' =
      if blank % n + 1 < n then
        some ((state.set (blank + 1) (-1)).set blank (state.getD (blank + 1) 0), blank + 1)
      else none := by
  have hn : 0 < n := Nat.pos_of_ne_zero (by rintro rfl; simp at hb)
  have hr : blank % n < n := Nat.mod_lt _ hn
  have hq : blank / n < n := Nat.div_lt_of_lt_mul hb
  simp only [apply_move, Char.reduceEq, reduceIte, apply_at]
  by_cases hcase : blank % n + 1 < n
  · rw [if_neg (cond_inb n _ _ (cast_nonneg' _) (cast_lt_cast hq)
          (cast_succ_nonneg _) (cast_succ_lt hcase)),
        toNat_cast', toNat_cast_succ, idx_right, if_pos hcase]
  · have hr1 : n ≤ blank % n + 1 := by omega
    rw [if_pos (Or.inr (Or.inr (Or.inr (cast_succ_ge hr1)))), if_neg hcase]

theorem apply_move_other (state : List Int) (n blank : Nat) (move : Char)
    (h1 : move ≠ 'U') (h2 : move ≠ 'D') (h3 : move ≠ 'L') (h4 : move ≠ 'R') :
    apply_move state n blank move = none := by
  simp only [apply_move, if_neg h1, if_neg h2, if_neg h3, if_neg h4]

theorem getElem?_eq_getD {l : List Int} {i : Nat} (h : i < l.length) :
    l[i]? = some (l.getD i 0) := by
  rw [List.getD_eq_getElem?_getD]
  cases hg : l[i]? with
  | none => exact absurd (List.getElem?_eq_none_iff.mp hg) (by omega)
  | some v => rfl

theorem mod_pred {n blank : Nat} (h : blank % n ≠ 0) : (blank - 1) % n = blank % n - 1 := by
  rcases Nat.eq_zero_or_pos n with hn | hn
  · subst hn
    simp [Nat.mod_zero]
  · have key := Nat.div_add_mod blank n
    have hr : blank % n < n := Nat.mod_lt _ hn
    have e : blank - 1 = n * (blank / n) + (blank % n - 1) := by omega
    rw [e, Nat.mul_add_mod]
    exact Nat.mod_eq_of_lt (by omega)

theorem mod_succ {n blank : Nat} (h : blank % n + 1 < n) : (blank + 1) % n = blank % n + 1 := by
  have key := Nat.div_add_mod blank n
  have e : blank + 1 = n * (blank / n) + (blank % n + 1) := by omega
  rw [e, Nat.mul_add_mod]
  exact Nat.mod_eq_of_lt h

theorem swap_getD (state : List Int) (blank j : Nat) (hb : blank < state.length) :
    ((state.set j (-1)).set blank (state.getD j 0)).getD blank 0 = state.getD j 0 := by
  rw [List.getD_eq_getElem?_getD, List.getElem?_set_eq_of_lt _ (by simpa using hb)]
  rfl

theorem swap_restore (state : List Int) (blank j : Nat)
    (hj : j < state.length) (hb : blank < state.length) (hne : j ≠ blank)
    (hblank : state.getD blank 0 = -1) :
    ((((state.set j (-1)).set blank (state.getD j 0)).set blank (-1)).set j
        (((state.set j (-1)).set blank (state.getD j 0)).getD blank 0)) = state := by
  rw [swap_getD state blank j hb]
  apply List.ext_getElem?
  intro i
  by_cases hij : i = j
  · subst hij
    rw [List.getElem?_set_eq_of_lt _ (by simpa using hj), getElem?_eq_getD hj]
  · rw [List.getElem?_set_ne (fun hh : j = i => hij hh.symm)]
    by_cases hibl : i = blank
    · subst hibl
      rw [List.set_set, List.getElem?_set_eq_of_lt _ (by simpa using hb),
        getElem?_eq_getD hb, hblank]
    · rw [List.getElem?_set_ne (fun hh : blank = i => hibl hh.symm),
        List.getElem?_set_ne (fun hh : blank = i => hibl hh.symm),
        List.getElem?_set_ne (fun hh : j = i => hij hh.symm)]

theorem succ_lt_sq {n blank : Nat} (hb : blank < n * n) (h : blank % n + 1 < n) :
    blank + 1 < n * n := by
  have key := Nat.div_add_mod blank n
  have hq : blank / n < n := Nat.div_lt_of_lt_mul hb
  have h2 := Nat.mul_le_mul_left n (show blank / n + 1 ≤ n by omega)
  have e : n * (blank / n + 1) = n * (blank / n) + n := by ring
  rw [e] at h2
  omega

/-- A successful move, followed by the inverse move (`U`↔`D`, `L`↔`R`)
applied to the result, restores the original grid contents and blank index
exactly, provided the cell at `blank_index < n*n` holds the blank `-1`. -/
theorem roundtrip_restore (state : List Int) (n blank : Nat) (move : Char)
    (hlen : state.length = n * n) (hb : blank < n * n)
    (hblank : state.getD blank 0 = -1)
    (s' : List Int) (b' : Nat)
    (h : apply_move state n blank move = some (s', b')) :
    apply_move s' n b' (opposite_move move) = some (state, blank) := by
  have hn : 0 < n := Nat.pos_of_ne_zero (by rintro rfl; simp at hb)
  by_cases m1 : move = 'U'
  · subst m1
    rw [apply_move_U state n blank hb] at h
    by_cases hc : n ≤ blank
    · rw [if_pos hc] at h
      simp only [Option.some.injEq, Prod.mk.injEq] at h
      obtain ⟨hs, hbv⟩ := h
      subst hs
      subst hbv
      rw [show opposite_move 'U' = 'D' from by decide,
        apply_move_D _ n (blank - n) (by omega),
        show blank - n + n = blank from by omega, if_pos hb]
      simp only [Option.some.injEq, Prod.mk.injEq]
      exact ⟨swap_restore state blank (blank - n) (by omega) (by omega) (by omega) hblank,
        trivial⟩
    · rw [if_neg hc] at h
      cases h
  · by_cases m2 : move = 'D'
    · subst m2
      rw [apply_move_D state n blank hb] at h
      by_cases hc : blank + n < n * n
      · rw [if_pos hc] at h
        simp only [Option.some.injEq, Prod.mk.injEq] at h
        obtain ⟨hs, hbv⟩ := h
        subst hs
        subst hbv
        rw [show opposite_move 'D' = 'U' from by decide,
          apply_move_U _ n (blank + n) hc,
          show blank + n - n = blank from by omega, if_pos (Nat.le_add_left n blank)]
        simp only [Option.some.injEq, Prod.mk.injEq]
        exact ⟨swap_restore state blank (blank + n) (by omega) (by omega) (by omega) hblank,
          trivial⟩
      · rw [if_neg hc] at h
        cases h
    · by_cases m3 : move = 'L'
      · subst m3
        rw [apply_move_L state n blank hb] at h
        by_cases hc : blank % n ≠ 0
        · rw [if_pos hc] at h
          simp only [Option.some.injEq, Prod.mk.injEq] at h
          obtain ⟨hs, hbv⟩ := h
          subst hs
          subst hbv
          have hr : blank % n < n := Nat.mod_lt _ hn
          have hb0 : blank ≠ 0 := by
            intro h0
            exact hc (by simp [h0])
          rw [show opposite_move 'L' = 'R' from by decide,
            apply_move_R _ n (blank - 1) (by omega), mod_pred hc,
            show blank - 1 + 1 = blank from by omega, if_pos (by omega)]
          simp only [Option.some.injEq, Prod.mk.injEq]
          exact ⟨swap_restore state blank (blank - 1) (by omega) (by omega) (by omega) hblank,
            trivial⟩
        · rw [if_neg hc] at h
          cases h
      · by_cases m4 : move = 'R'
        · subst m4
          rw [apply_move_R state n blank hb] at h
          by_cases hc : blank % n + 1 < n
          · rw [if_pos hc] at h
            simp only [Option.some.injEq, Prod.mk.injEq] at h
            obtain ⟨hs, hbv⟩ := h
            subst hs
            subst hbv
            rw [show opposite_move 'R' = 'L' from by decide,
              apply_move_L _ n (blank + 1) (succ_lt_sq hb hc), mod_succ hc,
              show blank + 1 - 1 = blank from by omega, if_pos (by omega)]
            simp only [Option.some.injEq, Prod.mk.injEq]
            exact ⟨swap_restore state blank (blank + 1)
                (by rw [hlen]; exact succ_lt_sq hb hc) (by omega) (by omega) hblank,
              trivial⟩
          · rw [if_neg hc] at h
            cases h
        · rw [apply_move_other state n blank move m1 m2 m3 m4] at h
          cases h

/-- C3 (amended): for every grid of length `n*n` whose cell at
`blank_index < n*n` holds the blank `-1`, if `apply_move` succeeds then
applying the inverse move (`U`↔`D`, `L`↔`R`) to the result also succeeds
and restores the original grid contents and the original blank index
exactly.  (The blank-at-`blank_index` condition is the data-model Grid
invariant; the counterexample `apply_move_roundtrip_cex` shows the claim
fails without it.) -/
theorem apply_move_roundtrip (state : List Int) (n blank : Nat) (move : Char)
    (hlen : state.length = n * n) (hb : blank < n * n)
    (hblank : state.getD blank 0 = -1)
    (s' : List Int) (b' : Nat)
    (h : apply_move state n blank move = some (s', b')) :
    apply_move s' n b' (opposite_move move) = some (state, blank) :=
  roundtrip_restore state n blank move hlen hb hblank s' b' h

theorem getD_eq_getElem {l : List Int} {i : Nat} (h : i < l.length) :
    l.getD i 0 = l[i] := by
  rw [List.getD_eq_getElem?_getD, List.getElem?_eq_getElem h]
  rfl

theorem div_pred {n blank : Nat} (hn : 0 < n) (h : blank % n ≠ 0) :
    (blank - 1) / n = blank / n := by
  have key := Nat.div_add_mod blank n
  have hr : blank % n < n := Nat.mod_lt _ hn
  have e : blank - 1 = n * (blank / n) + (blank % n - 1) := by omega
  rw [e, Nat.mul_add_div hn, Nat.div_eq_of_lt (show blank % n - 1 < n by omega)]
  omega

theorem div_succ {n blank : Nat} (h : blank % n + 1 < n) :
    (blank + 1) / n = blank / n := by
  have hn : 0 < n := by omega
  have key := Nat.div_add_mod blank n
  have e : blank + 1 = n * (blank / n) + (blank % n + 1) := by omega
  rw [e, Nat.mul_add_div hn, Nat.div_eq_of_lt h]
  omega

theorem div_sub_n {n blank : Nat} (hn : 0 < n) (h : n ≤ blank) :
    (blank - n) / n + 1 = blank / n := by
  have e := Nat.add_div_right (blank - n) hn
  rw [show blank - n + n = blank from by omega] at e
  omega

theorem mod_sub_n {n blank : Nat} (h : n ≤ blank) :
    (blank - n) % n = blank % n := by
  have e := Nat.add_mod_right (blank - n) n
  rw [show blank - n + n = blank from by omega] at e
  omega

theorem apply_move_shape {state : List Int} {n blank : Nat} {mv : Char} {s' : List Int}
    {b' : Nat} (hb : blank < n * n)
    (h : apply_move state n blank mv = some (s', b')) :
    s' = (state.set b' (-1)).set blank (state.getD b' 0) ∧ b' < n * n ∧ b' ≠ blank ∧
    ((b' = blank - n ∧ n ≤ blank ∧ b' / n + 1 = blank / n ∧ b' % n = blank % n) ∨
     (b' = blank + n ∧ blank + n < n * n ∧ b' / n = blank / n + 1 ∧ b' % n = blank % n) ∨
     (b' = blank - 1 ∧ blank % n ≠ 0 ∧ b' / n = blank / n ∧ b' % n + 1 = blank % n) ∨
     (b' = blank + 1 ∧ blank % n + 1 < n ∧ b' / n = blank / n ∧ b' % n = blank % n + 1)) := by
  have hn : 0 < n := Nat.pos_of_ne_zero (by rintro rfl; simp at hb)
  have hr : blank % n < n := Nat.mod_lt _ hn
  by_cases m1 : mv = 'U'
  · subst m1
    rw [apply_move_U state n blank hb] at h
    by_cases hc : n ≤ blank
    · rw [if_pos hc] at h
      simp only [Option.some.injEq, Prod.mk.injEq] at h
      obtain ⟨hs, hbv⟩ := h
      subst hbv
      exact ⟨by rw [hs], by omega, by omega,
        Or.inl ⟨rfl, hc, div_sub_n hn hc, mod_sub_n hc⟩⟩
    · rw [if_neg hc] at h
      cases h
  · by_cases m2 : mv = 'D'
    · subst m2
      rw [apply_move_D state n blank hb] at h
      by_cases hc : blank + n < n * n
      · rw [if_pos hc] at h
        simp only [Option.some.injEq, Prod.mk.injEq] at h
        obtain ⟨hs, hbv⟩ := h
        subst hbv
        exact ⟨by rw [hs], by omega, by omega,
          Or.inr (Or.inl ⟨rfl, hc, Nat.add_div_right blank hn, Nat.add_mod_right blank n⟩)⟩
      · rw [if_neg hc] at h
        cases h
    · by_cases m3 : mv = 'L'
      · subst m3
        rw [apply_move_L state n blank hb] at h
        by_cases hc : blank % n ≠ 0
        · rw [if_pos hc] at h
          simp only [Option.some.injEq, Prod.mk.injEq] at h
          obtain ⟨hs, hbv⟩ := h
          subst hbv
          have hb0 : blank ≠ 0 := fun h0 => hc (by simp [h0])
          exact ⟨by rw [hs], by omega, by omega,
            Or.inr (Or.inr (Or.inl ⟨rfl, hc, div_pred hn hc, by rw [mod_pred hc]; omega⟩))⟩
        · rw [if_neg hc] at h
          cases h
      · by_cases m4 : mv = 'R'
        · subst m4
          rw [apply_move_R state n blank hb] at h
          by_cases hc : blank % n + 1 < n
          · rw [if_pos hc] at h
            simp only [Option.some.injEq, Prod.mk.injEq] at h
            obtain ⟨hs, hbv⟩ := h
            subst hbv
            exact ⟨by rw [hs], succ_lt_sq hb hc, by omega,
              Or.inr (Or.inr (Or.inr ⟨rfl, hc, div_succ hc, mod_succ hc⟩))⟩
          · rw [if_neg hc] at h
            cases h
        · rw [apply_move_other state n blank mv m1 m2 m3 m4] at h
          cases h

theorem swap_getD_target (state : List Int) (blank j : Nat) (hj : j < state.length)
    (hne : j ≠ blank) :
    ((state.set j (-1)).set blank (state.getD j 0)).getD j 0 = -1 := by
  rw [List.getD_eq_getElem?_getD, List.getElem?_set_ne (fun hh : blank = j => hne hh.symm),
    List.getElem?_set_eq_of_lt _ hj]
  rfl

theorem swap_getD_other (state : List Int) (blank j i : Nat) (h1 : i ≠ blank) (h2 : i ≠ j) :
    ((state.set j (-1)).set blank (state.getD j 0)).getD i 0 = state.getD i 0 := by
  rw [List.getD_eq_getElem?_getD, List.getElem?_set_ne (fun hh : blank = i => h1 hh.symm),
    List.getElem?_set_ne (fun hh : j = i => h2 hh.symm), ← List.getD_eq_getElem?_getD]

theorem swap_count (state : List Int) (blank j : Nat) (hj : j < state.length)
    (hb : blank < state.length) (hne : j ≠ blank) (hblank : state.getD blank 0 = -1)
    (v : Int) :
    ((state.set j (-1)).set blank (state.getD j 0)).count v = state.count v := by
  have hb2 : blank < (state.set j (-1)).length := by simpa using hb
  rw [List.count_set _ _ _ _ hb2, List.count_set _ _ _ _ hj]
  have hgb : (state.set j (-1))[blank] = (-1 : Int) := by
    rw [List.getElem_set_ne (fun hh : j = blank => hne hh)]
    rw [← getD_eq_getElem hb, hblank]
  rw [hgb, getD_eq_getElem hj]
  have hcnt : state[j] = v → 1 ≤ state.count v := by
    intro he
    exact List.count_pos_iff.mpr (he ▸ List.getElem_mem hj)
  by_cases h1 : state[j] = v <;> by_cases h2 : (-1 : Int) = v <;>
    simp only [beq_iff_eq, h1, h2, if_pos, if_neg, reduceIte] <;> omega

theorem tile_dist_nonneg (v : Int) (idx n : Nat) : 0 ≤ tile_dist v idx n :=
  add_nonneg (abs_nonneg _) (abs_nonneg _)

theorem mdTerm_nonneg (n idx : Nat) (v : Int) : 0 ≤ mdTerm n idx v := by
  unfold mdTerm
  split
  · exact le_refl 0
  · exact tile_dist_nonneg v idx n

theorem mdGo_nonneg (n : Nat) : ∀ (i : Nat) (l : List Int), 0 ≤ mdGo n i l
  | _, [] => le_refl 0
  | i, v :: rest => add_nonneg (mdTerm_nonneg n i v) (mdGo_nonneg n (i + 1) rest)

theorem manhattan_nonneg (state : List Int) (n : Nat) : 0 ≤ manhattan_distance state n :=
  mdGo_nonneg n 0 state

theorem tile_dist_self (i n : Nat) : tile_dist (i : Int) i n = 0 := by
  unfold tile_dist
  rw [show Int.tdiv ((i : Nat) : Int) (n : Int) = ((i / n : Nat) : Int) from by exact_mod_cast rfl,
    show Int.tmod ((i : Nat) : Int) (n : Int) = ((i % n : Nat) : Int) from by exact_mod_cast rfl]
  simp

theorem mdGo_zero_of (n : Nat) :
    ∀ (i : Nat) (l : List Int), (∀ k, k < l.length → mdTerm n (i + k) (l.getD k 0) = 0) →
      mdGo n i l = 0
  | _, [], _ => rfl
  | i, v :: rest, h => by
    unfold mdGo
    have h0 := h 0 (by simp)
    simp only [List.getD_cons_zero, Nat.add_zero] at h0
    rw [h0, mdGo_zero_of n (i + 1) rest (fun k hk => by
      have := h (k + 1) (by simpa using Nat.succ_lt_succ hk)
      simpa [Nat.add_comm, Nat.add_assoc, Nat.add_left_comm] using this)]
    simp

theorem manhattan_goal_layout (n : Nat) : manhattan_distance (goal_layout n) n = 0 := by
  apply mdGo_zero_of
  intro k hk
  have hk' : k < n * n := by simpa [goal_layout] using hk
  have hget : (goal_layout n).getD k 0 = if k = n * n - 1 then -1 else (k : Int) := by
    rw [List.getD_eq_getElem?_getD]
    simp [goal_layout, hk']
  rw [Nat.zero_add, hget]
  by_cases hlast : k = n * n - 1
  · simp [mdTerm, hlast]
  · rw [if_neg hlast]
    unfold mdTerm
    rw [if_neg (by omega)]
    exact tile_dist_self k n

theorem mdGo_set (n : Nat) (x : Int) :
    ∀ (l : List Int) (i k : Nat), k < l.length →
      mdGo n i (l.set k x) + mdTerm n (i + k) (l.getD k 0) =
        mdGo n i l + mdTerm n (i + k) x
  | [], _, k, hk => absurd hk (by simp)
  | v :: rest, i, 0, _ => by
    simp only [List.set_cons_zero, List.getD_cons_zero, Nat.add_zero, mdGo]
    omega
  | v :: rest, i, k + 1, hk => by
    simp only [List.set_cons_succ, List.getD_cons_succ, mdGo]
    have ih := mdGo_set n x rest (i + 1) k (by simpa using Nat.lt_of_succ_lt_succ hk)
    rw [show i + 1 + k = i + (k + 1) from by omega] at ih
    omega

theorem manhattan_set (state : List Int) (n k : Nat) (x : Int) (hk : k < state.length) :
    manhattan_distance (state.set k x) n =
      manhattan_distance state n + mdTerm n k x - mdTerm n k (state.getD k 0) := by
  have := mdGo_set n x state 0 k hk
  rw [Nat.zero_add] at this
  unfold manhattan_distance
  omega

theorem abs_pm (g a b : Int) (h : b = a - 1 ∨ b = a + 1) :
    |g - a| - |g - b| = 1 ∨ |g - a| - |g - b| = -1 := by
  rcases h with h | h <;> subst h
  · rcases le_or_lt g (a - 1) with h' | h'
    · left
      rw [abs_of_nonpos (by omega), abs_of_nonpos (by omega)]
      omega
    · right
      rw [abs_of_nonneg (by omega), abs_of_nonneg (by omega)]
      omega
  · rcases le_or_lt g a with h' | h'
    · right
      rw [abs_of_nonpos (by omega), abs_of_nonpos (by omega)]
      omega
    · left
      rw [abs_of_nonneg (by omega), abs_of_nonneg (by omega)]
      omega

theorem tile_dist_adjacent {n blank b' : Nat} (v : Int)
    (hgeo : (b' / n + 1 = blank / n ∧ b' % n = blank % n) ∨
            (b' / n = blank / n + 1 ∧ b' % n = blank % n) ∨
            (b' / n = blank / n ∧ b' % n + 1 = blank % n) ∨
            (b' / n = blank / n ∧ b' % n = blank % n + 1)) :
    tile_dist v blank n - tile_dist v b' n = 1 ∨
      tile_dist v blank n - tile_dist v b' n = -1 := by
  unfold tile_dist
  rcases hgeo with ⟨h1, h2⟩ | ⟨h1, h2⟩ | ⟨h1, h2⟩ | ⟨h1, h2⟩
  · have e1 : ((b' / n : Nat) : Int) = ((blank / n : Nat) : Int) - 1 := by
      have : ((b' / n : Nat) : Int) + 1 = ((blank / n : Nat) : Int) := by exact_mod_cast h1
      omega
    have e2 : ((b' % n : Nat) : Int) = ((blank % n : Nat) : Int) := by exact_mod_cast h2
    rw [e1, e2]
    have := abs_pm (Int.tdiv v n) ((blank / n : Nat) : Int) (((blank / n : Nat) : Int) - 1)
      (Or.inl rfl)
    omega
  · have e1 : ((b' / n : Nat) : Int) = ((blank / n : Nat) : Int) + 1 := by exact_mod_cast h1
    have e2 : ((b' % n : Nat) : Int) = ((blank % n : Nat) : Int) := by exact_mod_cast h2
    rw [e1, e2]
    have := abs_pm (Int.tdiv v n) ((blank / n : Nat) : Int) (((blank / n : Nat) : Int) + 1)
      (Or.inr rfl)
    omega
  · have e1 : ((b' / n : Nat) : Int) = ((blank / n : Nat) : Int) := by exact_mod_cast h1
    have e2 : ((b' % n : Nat) : Int) = ((blank % n : Nat) : Int) - 1 := by
      have : ((b' % n : Nat) : Int) + 1 = ((blank % n : Nat) : Int) := by exact_mod_cast h2
      omega
    rw [e1, e2]
    have := abs_pm (Int.tmod v n) ((blank % n : Nat) : Int) (((blank % n : Nat) : Int) - 1)
      (Or.inl rfl)
    omega
  · have e1 : ((b' / n : Nat) : Int) = ((blank / n : Nat) : Int) := by exact_mod_cast h1
    have e2 : ((b' % n : Nat) : Int) = ((blank % n : Nat) : Int) + 1 := by exact_mod_cast h2
    rw [e1, e2]
    have := abs_pm (Int.tmod v n) ((blank % n : Nat) : Int) (((blank % n : Nat) : Int) + 1)
      (Or.inr rfl)
    omega

theorem getD_set_ne (state : List Int) (j i : Nat) (x : Int) (hne : j ≠ i) :
    (state.set j x).getD i 0 = state.getD i 0 := by
  rw [List.getD_eq_getElem?_getD, List.getElem?_set_ne hne, ← List.getD_eq_getElem?_getD]

theorem manhattan_move (state : List Int) (n blank : Nat) (mv : Char) (s' : List Int)
    (b' : Nat) (hlen : state.length = n * n) (hb : blank < n * n)
    (hblank : state.getD blank 0 = -1)
    (hother : ∀ i, i < n * n → i ≠ blank → state.getD i 0 ≠ -1)
    (h : apply_move state n blank mv = some (s', b')) :
    manhattan_distance s' n = manhattan_distance state n +
      (tile_dist (state.getD b' 0) blank n - tile_dist (state.getD b' 0) b' n) ∧
    (tile_dist (state.getD b' 0) blank n - tile_dist (state.getD b' 0) b' n = 1 ∨
      tile_dist (state.getD b' 0) blank n - tile_dist (state.getD b' 0) b' n = -1) := by
  obtain ⟨hs, hb', hne, hgeo⟩ := apply_move_shape hb h
  have htemp : state.getD b' 0 ≠ -1 := hother b' hb' hne
  have e0 : ∀ k, mdTerm n k (-1) = 0 := fun k => by simp [mdTerm]
  have e1 : ∀ k, mdTerm n k (state.getD b' 0) = tile_dist (state.getD b' 0) k n :=
    fun k => by unfold mdTerm; rw [if_neg htemp]
  constructor
  · subst hs
    rw [manhattan_set _ n blank _ (by simp; omega), manhattan_set _ n b' _ (by omega),
      getD_set_ne state b' blank _ hne, hblank, e0, e0, e1, e1]
    omega
  · apply tile_dist_adjacent
    rcases hgeo with ⟨-, -, h1, h2⟩ | ⟨-, -, h1, h2⟩ | ⟨-, -, h1, h2⟩ | ⟨-, -, h1, h2⟩
    · exact Or.inl ⟨h1, h2⟩
    · exact Or.inr (Or.inl ⟨h1, h2⟩)
    · exact Or.inr (Or.inr (Or.inl ⟨h1, h2⟩))
    · exact Or.inr (Or.inr (Or.inr ⟨h1, h2⟩))

theorem igGo_iff_cmGo (len : Nat) :
    ∀ (l : List Int) (i : Nat), l ≠ [] → i + l.length = len →
      (igGo i l = true ↔ cmGo len i l = 0)
  | [], _, hne, _ => absurd rfl hne
  | [v], i, _, hlen => by
    have hi : i = len - 1 := by simp at hlen; omega
    simp only [igGo, cmGo, Nat.add_zero, decide_eq_true_eq]
    by_cases hv : v = -1
    · simp [hv, hi]
    · simp [hv, hi]
  | v :: w :: rest, i, _, hlen => by
    have hi : i ≠ len - 1 := by simp at hlen; omega
    have ih := igGo_iff_cmGo len (w :: rest) (i + 1) (by simp) (by simp at hlen ⊢; omega)
    simp only [igGo, cmGo, Bool.and_eq_true, decide_eq_true_eq]
    by_cases hv : v = -1
    · have hvi : v ≠ (i : Int) := by
        rw [hv]
        intro hc
        have : (0 : Int) ≤ (i : Int) := Int.natCast_nonneg i
        omega
      simp [hv, hvi, hi]
    · by_cases hvi : v = (i : Int)
      · rw [if_neg hv, if_neg hi, if_neg (not_not_intro hvi)]
        simp only [Nat.zero_add]
        exact ⟨fun hh => ih.mp hh.2, fun hh => ⟨hvi, ih.mpr hh⟩⟩
      · simp [hv, hvi, hi]
  termination_by l => l.length

/-- C7: for every grid of length `n*n` (with `n > 0`, so that the C code
reads no out-of-bounds cell), `is_goal` returns true if and only if
`count_misplaced` returns 0 on that grid. -/
theorem is_goal_iff_count_misplaced (state : List Int) (n : Nat)
    (hlen : state.length = n * n) (hn : 0 < n) :
    (is_goal state = true ↔ count_misplaced state = 0) := by
  have hne : state ≠ [] := by
    intro hc
    rw [hc] at hlen
    simp at hlen
    rcases hlen with h | h <;> omega
  exact igGo_iff_cmGo state.length state 0 hne (by omega)

theorem skipChain_no_match (hash : Nat) (state : List Int) (g : Int) :
    ∀ chain, (∀ e ∈ chain, ¬entry_matches e hash state) →
      skipChain hash state g chain = (false, chain)
  | [], _ => rfl
  | e :: rest, h => by
    unfold skipChain
    rw [if_neg (h e (by simp))]
    rw [skipChain_no_match hash state g rest (fun f hf => h f (by simp [hf]))]

theorem skipChain_found_le (hash : Nat) (state : List Int) (g : Int) (f : VisitedEntry)
    (suf : List VisitedEntry) (hf : entry_matches f hash state) (hle : f.g ≤ g) :
    ∀ pre, (∀ e ∈ pre, ¬entry_matches e hash state) →
      skipChain hash state g (pre ++ f :: suf) = (true, pre ++ f :: suf)
  | [], _ => by
    rw [List.nil_append]
    simp only [skipChain]
    rw [if_pos hf, if_pos hle]
  | e :: pre, h => by
    rw [List.cons_append]
    simp only [skipChain]
    rw [if_neg (h e (by simp)), skipChain_found_le hash state g f suf hf hle pre
      (fun x hx => h x (by simp [hx]))]

theorem skipChain_found_gt (hash : Nat) (state : List Int) (g : Int) (f : VisitedEntry)
    (suf : List VisitedEntry) (hf : entry_matches f hash state) (hgt : g < f.g) :
    ∀ pre, (∀ e ∈ pre, ¬entry_matches e hash state) →
      skipChain hash state g (pre ++ f :: suf) =
        (false, pre ++ { f with g := g } :: suf)
  | [], _ => by
    rw [List.nil_append]
    simp only [skipChain]
    rw [if_pos hf, if_neg (by omega)]
    rw [List.nil_append]
  | e :: pre, h => by
    rw [List.cons_append]
    simp only [skipChain]
    rw [if_neg (h e (by simp)), skipChain_found_gt hash state g f suf hf hgt pre
      (fun x hx => h x (by simp [hx]))]
    rw [List.cons_append]

theorem chain_decomp (hash : Nat) (state : List Int) :
    ∀ chain : List VisitedEntry,
      (∀ e ∈ chain, ¬entry_matches e hash state) ∨
      ∃ pre f suf, chain = pre ++ f :: suf ∧
        (∀ e ∈ pre, ¬entry_matches e hash state) ∧ entry_matches f hash state
  | [] => Or.inl (by simp)
  | e :: rest => by
    by_cases he : entry_matches e hash state
    · exact Or.inr ⟨[], e, rest, by simp, by simp, he⟩
    · rcases chain_decomp hash state rest with h | ⟨pre, f, suf, hsplit, hpre, hf⟩
      · refine Or.inl ?_
        intro x hx
        rcases List.mem_cons.mp hx with hx | hx
        · exact hx ▸ he
        · exact h x hx
      · refine Or.inr ⟨e :: pre, f, suf, by rw [hsplit, List.cons_append], ?_, hf⟩
        intro x hx
        rcases List.mem_cons.mp hx with hx | hx
        · exact hx ▸ he
        · exact hpre x hx

/-- C4: under the table well-formedness the program maintains (every entry
stores the FNV-1a hash of its own grid and is chained in the bucket that
hash selects), a query with `hash = fnv1a_hash state`, and the program's
invariant that costs of equal recorded grids are nondecreasing front to
back along a chain: `visited_should_skip` returns true iff the table
already records a grid equal to the queried grid (full content equality,
never hash alone) with recorded cost `g' ≤ g`; when no equal grid is
recorded it returns false and leaves the table unchanged; when the equal
grids recorded all have `g' > g` it returns false and updates the first
matching record in place to `g`, touching nothing else. -/
theorem visited_should_skip_spec (set : VisitedSet) (hash : Nat) (state : List Int) (g : Int)
    (hwf : tableWF set) (hq : hash = fnv1a_hash state)
    (hmono : ((set.buckets (hash % set.bucket_count)).filter
      (fun e => decide (entry_matches e hash state))).Pairwise (fun a b => a.g ≤ b.g)) :
    ((visited_should_skip set hash state g).1 = true ↔
      ∃ e, tableMem e set ∧ e.state = state ∧ e.g ≤ g) ∧
    ((∀ e, tableMem e set → e.state ≠ state) →
      (visited_should_skip set hash state g).1 = false ∧
      (visited_should_skip set hash state g).2 = set) ∧
    ((∃ e, tableMem e set ∧ e.state = state) →
      (∀ e, tableMem e set → e.state = state → g < e.g) →
      (visited_should_skip set hash state g).1 = false ∧
      ∃ pre f suf, set.buckets (hash % set.bucket_count) = pre ++ f :: suf ∧
        f.state = state ∧ g < f.g ∧
        (visited_should_skip set hash state g).2.buckets (hash % set.bucket_count) =
          pre ++ { f with g := g } :: suf ∧
        (visited_should_skip set hash state g).2.bucket_count = set.bucket_count ∧
        ∀ i, i ≠ hash % set.bucket_count →
          (visited_should_skip set hash state g).2.buckets i = set.buckets i) := by
  obtain ⟨hpos, hwf'⟩ := hwf
  have hidx : hash % set.bucket_count < set.bucket_count := Nat.mod_lt _ hpos
  have hbridge : ∀ e, (tableMem e set ∧ e.state = state) ↔
      (e ∈ set.buckets (hash % set.bucket_count) ∧ entry_matches e hash state) := by
    intro e
    constructor
    · rintro ⟨⟨i, hi, hmem⟩, hst⟩
      obtain ⟨hh, hb⟩ := hwf' i hi e hmem
      have hhash : e.hash = hash := by rw [hh, hst, hq]
      have : i = hash % set.bucket_count := by rw [← hb, hhash]
      exact ⟨this ▸ hmem, hhash, hst⟩
    · rintro ⟨hmem, hh, hst⟩
      exact ⟨⟨hash % set.bucket_count, hidx, hmem⟩, hst⟩
  rcases chain_decomp hash state (set.buckets (hash % set.bucket_count)) with
    hnone | ⟨pre, f, suf, hsplit, hpre, hf⟩
  · have hrun : skipChain hash state g (set.buckets (hash % set.bucket_count)) =
        (false, set.buckets (hash % set.bucket_count)) :=
      skipChain_no_match hash state g _ hnone
    have hb1 : (visited_should_skip set hash state g).1 = false := by
      simp only [visited_should_skip, hrun]
    have hb2 : (visited_should_skip set hash state g).2 = set := by
      simp only [visited_should_skip, hrun]
      cases set with
      | mk bc bk =>
        simp only [VisitedSet.mk.injEq]
        refine ⟨trivial, funext fun i => ?_⟩
        by_cases hi : i = hash % bc <;> simp [hi]
    refine ⟨?_, fun _ => ⟨hb1, hb2⟩, ?_⟩
    · rw [hb1]
      simp only [Bool.false_eq_true, false_iff]
      rintro ⟨e, hm, hst, -⟩
      exact hnone e ((hbridge e).mp ⟨hm, hst⟩).1 ((hbridge e).mp ⟨hm, hst⟩).2
    · rintro ⟨e, hm, hst⟩ -
      exact absurd ((hbridge e).mp ⟨hm, hst⟩).2 (hnone e ((hbridge e).mp ⟨hm, hst⟩).1)
  · have hfs : f.g ≤ f.g := le_refl _
    have hfmem : f ∈ set.buckets (hash % set.bucket_count) := by
      rw [hsplit]
      simp
    have hsuf_ge : ∀ e ∈ suf, entry_matches e hash state → f.g ≤ e.g := by
      intro e he hme
      have hfilter : (set.buckets (hash % set.bucket_count)).filter
          (fun x => decide (entry_matches x hash state)) =
          f :: suf.filter (fun x => decide (entry_matches x hash state)) := by
        rw [hsplit, List.filter_append, List.filter_cons_of_pos (by simpa using hf),
          List.filter_eq_nil_iff.mpr (by intro x hx; simpa using hpre x hx), List.nil_append]
      have := hmono
      rw [hfilter] at this
      have hp := (List.pairwise_cons.mp this).1
      exact hp e (List.mem_filter.mpr ⟨he, by simpa using hme⟩)
    rcases le_or_lt f.g g with hle | hgt
    · have hrun := skipChain_found_le hash state g f suf hf hle pre hpre
      rw [← hsplit] at hrun
      have hb1 : (visited_should_skip set hash state g).1 = true := by
        simp only [visited_should_skip, hrun]
      refine ⟨?_, fun hno => absurd hf.2 (hno f ⟨_, hidx, hfmem⟩), fun _ hall => ?_⟩
      · rw [hb1]
        simp only [true_iff]
        exact ⟨f, ⟨_, hidx, hfmem⟩, hf.2, hle⟩
      · exact absurd (hall f ⟨_, hidx, hfmem⟩ hf.2) (by omega)
    · have hrun := skipChain_found_gt hash state g f suf hf hgt pre hpre
      rw [← hsplit] at hrun
      have hb1 : (visited_should_skip set hash state g).1 = false := by
        simp only [visited_should_skip, hrun]
      refine ⟨?_, fun hno => absurd hf.2 (hno f ⟨_, hidx, hfmem⟩), fun _ _ => ⟨hb1, ?_⟩⟩
      · rw [hb1]
        simp only [Bool.false_eq_true, false_iff]
        rintro ⟨e, hm, hst, hle⟩
        have hin := (hbridge e).mp ⟨hm, hst⟩
        rw [hsplit] at hin
        rcases List.mem_append.mp hin.1 with hx | hx
        · exact hpre e hx hin.2
        · rcases List.mem_cons.mp hx with hx | hx
          · subst hx
            omega
          · have := hsuf_ge e hx hin.2
            omega
      · refine ⟨pre, f, suf, hsplit, hf.2, hgt, ?_, rfl, ?_⟩
        · simp only [visited_should_skip, hrun, reduceIte, if_true]
        · intro i hi
          simp only [visited_should_skip, hrun, if_neg hi]

theorem read_ini_rejects_nonpos (n : Int) (values : List Int) (h : n ≤ 0) :
    read_ini n values = none := by
  unfold read_ini
  rw [if_pos h]

theorem main_model_parse_failure (n : Int) (values : List Int)
    (moveLines : Option (List (List Char))) (h : n ≤ 0) :
    main_model (read_ini n values) moveLines = .parseFailure := by
  rw [read_ini_rejects_nonpos n values h]
  rfl

theorem onb_iff_U (n q r : Nat) (hq : q < n) (hr : r < n) :
    (0 ≤ (q : Int) - 1 ∧ (q : Int) - 1 < (n : Int) ∧
      0 ≤ (r : Int) ∧ (r : Int) < (n : Int)) ↔ 1 ≤ q := by omega

theorem onb_iff_D (n q r : Nat) (hq : q < n) (hr : r < n) :
    (0 ≤ (q : Int) + 1 ∧ (q : Int) + 1 < (n : Int) ∧
      0 ≤ (r : Int) ∧ (r : Int) < (n : Int)) ↔ q + 1 < n := by omega

theorem onb_iff_L (n q r : Nat) (hq : q < n) (hr : r < n) :
    (0 ≤ (q : Int) ∧ (q : Int) < (n : Int) ∧
      0 ≤ (r : Int) - 1 ∧ (r : Int) - 1 < (n : Int)) ↔ 1 ≤ r := by omega

theorem onb_iff_R (n q r : Nat) (hq : q < n) (hr : r < n) :
    (0 ≤ (q : Int) ∧ (q : Int) < (n : Int) ∧
      0 ≤ (r : Int) + 1 ∧ (r : Int) + 1 < (n : Int)) ↔ r + 1 < n := by omega

theorem swap_len (state : List Int) (blank j : Nat) :
    ((state.set j (-1)).set blank (state.getD j 0)).length = state.length := by
  simp

/-- C6: for a recognized move character on a grid of length `n*n` with
`blank_index < n*n`, `apply_move` fails — returning false with no
mutation, modelled as `none` — exactly when the blank's target cell for
the requested move lies outside the `n × n` board; otherwise it succeeds,
the new blank index is the flat index of that target cell, and the result
grid holds `-1` at the target, the old target tile at the old blank cell,
and every other cell unchanged (the blank is swapped with the tile at the
target index). -/
theorem apply_move_spec (state : List Int) (n blank : Nat) (move : Char)
    (hmv : move = 'U' ∨ move = 'D' ∨ move = 'L' ∨ move = 'R')
    (hlen : state.length = n * n) (hb : blank < n * n) :
    (apply_move state n blank move = none ↔
      ¬cell_on_board (target_cell n blank move) n) ∧
    (∀ s' b', apply_move state n blank move = some (s', b') →
      b' = cell_index (target_cell n blank move) n ∧ b' < n * n ∧ b' ≠ blank ∧
      s'.length = n * n ∧ s'.getD b' 0 = -1 ∧ s'.getD blank 0 = state.getD b' 0 ∧
      ∀ i, i < n * n → i ≠ blank → i ≠ b' → s'.getD i 0 = state.getD i 0) := by
  have hn : 0 < n := Nat.pos_of_ne_zero (by rintro rfl; simp at hb)
  have hq : blank / n < n := Nat.div_lt_of_lt_mul hb
  have hr : blank % n < n := Nat.mod_lt _ hn
  have hfacts : ∀ j, j < n * n → j ≠ blank →
      ((state.set j (-1)).set blank (state.getD j 0)).length = n * n ∧
      ((state.set j (-1)).set blank (state.getD j 0)).getD j 0 = -1 ∧
      ((state.set j (-1)).set blank (state.getD j 0)).getD blank 0 = state.getD j 0 ∧
      ∀ i, i < n * n → i ≠ blank → i ≠ j →
        ((state.set j (-1)).set blank (state.getD j 0)).getD i 0 = state.getD i 0 := by
    intro j hj hne
    refine ⟨by rw [swap_len, hlen], swap_getD_target state blank j (by omega) hne,
      swap_getD state blank j (by omega), ?_⟩
    intro i _ h1 h2
    exact swap_getD_other state blank j i h1 h2
  rcases hmv with hmv | hmv | hmv | hmv <;> subst hmv
  · simp only [target_cell, Char.reduceEq, reduceIte, cell_on_board, cell_index]
    rw [apply_move_U state n blank hb]
    have honb := (onb_iff_U n (blank / n) (blank % n) hq hr).trans
      (Nat.one_le_div_iff hn)
    by_cases hc : n ≤ blank
    · rw [if_pos hc]
      constructor
      · simp only [reduceCtorEq, false_iff]
        intro hno
        exact hno (honb.mpr hc)
      · intro s' b' h
        simp only [Option.some.injEq, Prod.mk.injEq] at h
        obtain ⟨hs, hbv⟩ := h
        have hidx : (((blank / n : Nat) : Int) - 1).toNat * n +
            (((blank % n : Nat) : Int)).toNat = blank - n := by
          rw [toNat_cast_pred, toNat_cast']
          exact idx_up ((Nat.one_le_div_iff hn).mpr hc)
        obtain ⟨f1, f2, f3, f4⟩ := hfacts (blank - n) (by omega) (by omega)
        subst hbv
        subst hs
        exact ⟨by rw [hidx], by omega, by omega, f1, f2, f3, f4⟩
    · rw [if_neg hc]
      refine ⟨by simp only [true_iff]; intro hon; exact hc (honb.mp hon), ?_⟩
      intro s' b' h
      cases h
  · simp only [target_cell, Char.reduceEq, reduceIte, cell_on_board, cell_index]
    rw [apply_move_D state n blank hb]
    have honb := (onb_iff_D n (blank / n) (blank % n) hq hr).trans
      (down_lt_iff hb).symm
    by_cases hc : blank + n < n * n
    · rw [if_pos hc]
      constructor
      · simp only [reduceCtorEq, false_iff]
        intro hno
        exact hno (honb.mpr hc)
      · intro s' b' h
        simp only [Option.some.injEq, Prod.mk.injEq] at h
        obtain ⟨hs, hbv⟩ := h
        have hidx : (((blank / n : Nat) : Int) + 1).toNat * n +
            (((blank % n : Nat) : Int)).toNat = blank + n := by
          rw [toNat_cast_succ, toNat_cast']
          exact idx_down
        obtain ⟨f1, f2, f3, f4⟩ := hfacts (blank + n) (by omega) (by omega)
        subst hbv
        subst hs
        exact ⟨by rw [hidx], by omega, by omega, f1, f2, f3, f4⟩
    · rw [if_neg hc]
      refine ⟨by simp only [true_iff]; intro hon; exact hc (honb.mp hon), ?_⟩
      intro s' b' h
      cases h
  · simp only [target_cell, Char.reduceEq, reduceIte, cell_on_board, cell_index]
    rw [apply_move_L state n blank hb]
    have honb := (onb_iff_L n (blank / n) (blank % n) hq hr).trans
      Nat.one_le_iff_ne_zero
    by_cases hc : blank % n ≠ 0
    · rw [if_pos hc]
      have hb0 : blank ≠ 0 := fun h0 => hc (by simp [h0])
      constructor
      · simp only [reduceCtorEq, false_iff]
        intro hno
        exact hno (honb.mpr hc)
      · intro s' b' h
        simp only [Option.some.injEq, Prod.mk.injEq] at h
        obtain ⟨hs, hbv⟩ := h
        have hidx : (((blank / n : Nat) : Int)).toNat * n +
            (((blank % n : Nat) : Int) - 1).toNat = blank - 1 := by
          rw [toNat_cast', toNat_cast_pred]
          exact idx_left hc
        obtain ⟨f1, f2, f3, f4⟩ := hfacts (blank - 1) (by omega) (by omega)
        subst hbv
        subst hs
        exact ⟨by rw [hidx], by omega, by omega, f1, f2, f3, f4⟩
    · rw [if_neg hc]
      push_neg at hc
      refine ⟨by simp only [true_iff]; intro hon; exact absurd (honb.mp hon) (by omega), ?_⟩
      intro s' b' h
      cases h
  · simp only [target_cell, Char.reduceEq, reduceIte, cell_on_board, cell_index]
    rw [apply_move_R state n blank hb]
    have honb := onb_iff_R n (blank / n) (blank % n) hq hr
    by_cases hc : blank % n + 1 < n
    · rw [if_pos hc]
      constructor
      · simp only [reduceCtorEq, false_iff]
        intro hno
        exact hno (honb.mpr hc)
      · intro s' b' h
        simp only [Option.some.injEq, Prod.mk.injEq] at h
        obtain ⟨hs, hbv⟩ := h
        have hidx : (((blank / n : Nat) : Int)).toNat * n +
            (((blank % n : Nat) : Int) + 1).toNat = blank + 1 := by
          rw [toNat_cast', toNat_cast_succ]
          exact idx_right
        obtain ⟨f1, f2, f3, f4⟩ := hfacts (blank + 1)
          (succ_lt_sq hb hc) (by omega)
        subst hbv
        subst hs
        exact ⟨by rw [hidx], succ_lt_sq hb hc, by omega, f1, f2, f3, f4⟩
    · rw [if_neg hc]
      refine ⟨by simp only [true_iff]; intro hon; exact hc (honb.mp hon), ?_⟩
      intro s' b' h
      cases h

/-- C10: for every grid of length `n*n` containing exactly one blank `-1`
with `blank_index < n*n` pointing at it, a successful `apply_move` yields a
grid holding exactly the same multiset of values — hence still exactly one
blank and the same tile values — with the updated blank index in range and
again pointing at the cell holding `-1`. -/
theorem apply_move_preserves_grid (state : List Int) (n blank : Nat) (mv : Char)
    (s' : List Int) (b' : Nat) (hlen : state.length = n * n) (hb : blank < n * n)
    (hone : state.count (-1) = 1) (hblank : state.getD blank 0 = -1)
    (h : apply_move state n blank mv = some (s', b')) :
    (s' : Multiset Int) = (state : Multiset Int) ∧ s'.count (-1) = 1 ∧
    s'.length = n * n ∧ b' < n * n ∧ s'.getD b' 0 = -1 := by
  obtain ⟨hs, hb', hne, -⟩ := apply_move_shape hb h
  subst hs
  have hp : ((state.set b' (-1)).set blank (state.getD b' 0)).Perm state :=
    List.perm_iff_count.mpr
      (fun v => swap_count state blank b' (by omega) (by omega) hne hblank v)
  exact ⟨Multiset.coe_eq_coe.mpr hp, by rw [hp.count_eq]; exact hone,
    by simp [hlen], hb', swap_getD_target state blank b' (by omega) hne⟩

/-- C10 witness: the invariant preservation at a concrete 2×2 move. -/
theorem apply_move_preserves_grid_witness :
    ([-1, 0, 1, 2] : List Int).length = 2 * 2 ∧ 0 < 2 * 2 ∧
    ([-1, 0, 1, 2] : List Int).count (-1) = 1 ∧
    ([-1, 0, 1, 2] : List Int).getD 0 0 = -1 ∧
    apply_move [-1, 0, 1, 2] 2 0 'R' = some ([0, -1, 1, 2], 1) ∧
    (([0, -1, 1, 2] : List Int) : Multiset Int) = (([-1, 0, 1, 2] : List Int) : Multiset Int) ∧
    ([0, -1, 1, 2] : List Int).count (-1) = 1 ∧
    ([0, -1, 1, 2] : List Int).length = 2 * 2 ∧ 1 < 2 * 2 ∧
    ([0, -1, 1, 2] : List Int).getD 1 0 = -1 :=
  ⟨by decide, by decide, by decide, by decide, by decide,
    by
      have := apply_move_preserves_grid [-1, 0, 1, 2] 2 0 'R' [0, -1, 1, 2] 1
        (by decide) (by decide) (by decide) (by decide) (by decide)
      exact ⟨this.1, this.2.1, this.2.2.1, this.2.2.2.1, this.2.2.2.2⟩⟩

/-- C5: the Manhattan-distance heuristic evaluates to 0 on the goal layout,
is nonnegative on every grid, and across any single successful move on a
well-formed grid (one blank, pointed at by the blank index) its value
changes by exactly 1: it decreases by 1 when the move strictly decreases
the moved tile's Manhattan distance to its goal cell — the moved tile is
the one at the target cell `b'`, which travels to the blank's old cell —
and increases by 1 otherwise. -/
theorem manhattan_distance_claim (state : List Int) (n blank : Nat) (mv : Char)
    (s' : List Int) (b' : Nat) (hlen : state.length = n * n) (hb : blank < n * n)
    (hblank : state.getD blank 0 = -1)
    (hother : ∀ i, i < n * n → i ≠ blank → state.getD i 0 ≠ -1)
    (h : apply_move state n blank mv = some (s', b')) :
    manhattan_distance (goal_layout n) n = 0 ∧
    (∀ l : List Int, 0 ≤ manhattan_distance l n) ∧
    (tile_dist (state.getD b' 0) blank n < tile_dist (state.getD b' 0) b' n →
      manhattan_distance s' n = manhattan_distance state n - 1) ∧
    (¬tile_dist (state.getD b' 0) blank n < tile_dist (state.getD b' 0) b' n →
      manhattan_distance s' n = manhattan_distance state n + 1) := by
  obtain ⟨heq, hpm⟩ := manhattan_move state n blank mv s' b' hlen hb hblank hother h
  refine ⟨manhattan_goal_layout n, fun l => manhattan_nonneg l n, ?_, ?_⟩
  · intro hlt
    omega
  · intro hge
    omega

/-- C5 witness: the heuristic properties at a concrete 2×2 move (the `R`
move pushes tile 0 away from its goal cell, so the distance grows by 1). -/
theorem manhattan_distance_claim_witness :
    ([-1, 0, 1, 2] : List Int).length = 2 * 2 ∧ 0 < 2 * 2 ∧
    ([-1, 0, 1, 2] : List Int).getD 0 0 = -1 ∧
    (∀ i, i < 2 * 2 → i ≠ 0 → ([-1, 0, 1, 2] : List Int).getD i 0 ≠ -1) ∧
    apply_move [-1, 0, 1, 2] 2 0 'R' = some ([0, -1, 1, 2], 1) ∧
    (manhattan_distance (goal_layout 2) 2 = 0 ∧
      (∀ l : List Int, 0 ≤ manhattan_distance l 2) ∧
      (tile_dist (([-1, 0, 1, 2] : List Int).getD 1 0) 0 2 <
          tile_dist (([-1, 0, 1, 2] : List Int).getD 1 0) 1 2 →
        manhattan_distance [0, -1, 1, 2] 2 = manhattan_distance [-1, 0, 1, 2] 2 - 1) ∧
      (¬tile_dist (([-1, 0, 1, 2] : List Int).getD 1 0) 0 2 <
          tile_dist (([-1, 0, 1, 2] : List Int).getD 1 0) 1 2 →
        manhattan_distance [0, -1, 1, 2] 2 = manhattan_distance [-1, 0, 1, 2] 2 + 1)) :=
  ⟨by decide, by decide, by decide, by decide, by decide,
    manhattan_distance_claim [-1, 0, 1, 2] 2 0 'R' [0, -1, 1, 2] 1
      (by decide) (by decide) (by decide) (by decide) (by decide)⟩

/-- C3 counterexample: the claim quantifies over every grid and blank
index, but when the cell at the blank index does not hold `-1` the round
trip fails: on `[0,1,2,3]` with blank index 0, `R` succeeds, the inverse
`L` succeeds, yet the grid comes back as `[-1,1,2,3] ≠ [0,1,2,3]`. -/
theorem apply_move_roundtrip_cex :
    apply_move [0, 1, 2, 3] 2 0 'R' = some ([1, -1, 2, 3], 1) ∧
    opposite_move 'R' = 'L' ∧
    apply_move [1, -1, 2, 3] 2 1 'L' = some ([-1, 1, 2, 3], 0) ∧
    ([-1, 1, 2, 3] : List Int) ≠ [0, 1, 2, 3] := by decide

/-- C3 witness: the round trip at a concrete 2×2 move. -/
theorem apply_move_roundtrip_witness :
    ([-1, 0, 1, 2] : List Int).length = 2 * 2 ∧ 0 < 2 * 2 ∧
    ([-1, 0, 1, 2] : List Int).getD 0 0 = -1 ∧
    apply_move [-1, 0, 1, 2] 2 0 'R' = some ([0, -1, 1, 2], 1) ∧
    apply_move [0, -1, 1, 2] 2 1 (opposite_move 'R') = some ([-1, 0, 1, 2], 0) :=
  ⟨by decide, by decide, by decide, by decide,
    apply_move_roundtrip [-1, 0, 1, 2] 2 0 'R' (by decide) (by decide) (by decide)
      [0, -1, 1, 2] 1 (by decide)⟩

/-- C6 witness: the failure/success contract at a concrete 2×2 move. -/
theorem apply_move_spec_witness :
    (('R' : Char) = 'U' ∨ ('R' : Char) = 'D' ∨ ('R' : Char) = 'L' ∨ ('R' : Char) = 'R') ∧
    ([-1, 0, 1, 2] : List Int).length = 2 * 2 ∧ 0 < 2 * 2 ∧
    ((apply_move [-1, 0, 1, 2] 2 0 'R' = none ↔
        ¬cell_on_board (target_cell 2 0 'R') 2) ∧
      (∀ s' b', apply_move [-1, 0, 1, 2] 2 0 'R' = some (s', b') →
        b' = cell_index (target_cell 2 0 'R') 2 ∧ b' < 2 * 2 ∧ b' ≠ 0 ∧
        s'.length = 2 * 2 ∧ s'.getD b' 0 = -1 ∧
        s'.getD 0 0 = ([-1, 0, 1, 2] : List Int).getD b' 0 ∧
        ∀ i, i < 2 * 2 → i ≠ 0 → i ≠ b' →
          s'.getD i 0 = ([-1, 0, 1, 2] : List Int).getD i 0)) :=
  ⟨by decide, by decide, by decide,
    apply_move_spec [-1, 0, 1, 2] 2 0 'R' (by decide) (by decide) (by decide)⟩

/-- C7 witness: the equivalence at the solved 2×2 grid. -/
theorem is_goal_iff_count_misplaced_witness :
    ([0, 1, 2, -1] : List Int).length = 2 * 2 ∧ 0 < 2 ∧
    (is_goal [0, 1, 2, -1] = true ↔ count_misplaced [0, 1, 2, -1] = 0) :=
  ⟨by decide, by decide,
    is_goal_iff_count_misplaced [0, 1, 2, -1] 2 (by decide) (by decide)⟩

/-- C4 witness: the skip/update contract at a concrete one-entry table
holding the grid `[0,1,2,-1]` at cost 5, queried with the same grid at
cost 3. -/
theorem visited_should_skip_spec_witness :
    tableWF (VisitedSet.mk 2 (fun i => if i = fnv1a_hash [0, 1, 2, -1] % 2 then
      [⟨fnv1a_hash [0, 1, 2, -1], 5, [0, 1, 2, -1]⟩] else [])) ∧
    fnv1a_hash [0, 1, 2, -1] = fnv1a_hash [0, 1, 2, -1] ∧
    (((VisitedSet.mk 2 (fun i => if i = fnv1a_hash [0, 1, 2, -1] % 2 then
        [⟨fnv1a_hash [0, 1, 2, -1], 5, [0, 1, 2, -1]⟩] else [])).buckets
        (fnv1a_hash [0, 1, 2, -1] % 2)).filter
      (fun e => decide (entry_matches e (fnv1a_hash [0, 1, 2, -1]) [0, 1, 2, -1]))).Pairwise
      (fun a b => a.g ≤ b.g) ∧
    ((visited_should_skip (VisitedSet.mk 2 (fun i => if i = fnv1a_hash [0, 1, 2, -1] % 2 then
        [⟨fnv1a_hash [0, 1, 2, -1], 5, [0, 1, 2, -1]⟩] else []))
        (fnv1a_hash [0, 1, 2, -1]) [0, 1, 2, -1] 3).1 = true ↔
      ∃ e, tableMem e (VisitedSet.mk 2 (fun i => if i = fnv1a_hash [0, 1, 2, -1] % 2 then
        [⟨fnv1a_hash [0, 1, 2, -1], 5, [0, 1, 2, -1]⟩] else [])) ∧
        e.state = [0, 1, 2, -1] ∧ e.g ≤ 3) :=
  ⟨by unfold tableWF; decide, rfl, by decide,
    (visited_should_skip_spec (VisitedSet.mk 2 (fun i =>
        if i = fnv1a_hash [0, 1, 2, -1] % 2 then
          [⟨fnv1a_hash [0, 1, 2, -1], 5, [0, 1, 2, -1]⟩] else []))
      (fnv1a_hash [0, 1, 2, -1]) [0, 1, 2, -1] 3
      (by unfold tableWF; decide) rfl (by decide)).1⟩

/-- C8 counterexample: the claim says `n = 1` is rejected, but `read_ini`
only checks `n <= 0` (src/main.c line 255): a 1×1 puzzle whose single cell
is the blank parses successfully, and the run does not abort. -/
theorem read_ini_accepts_one :
    read_ini 1 [-1] = some ([-1], 1, 0) ∧
    main_model (read_ini 1 [-1]) none = .solving [-1] 1 0 := by decide

/-- C8 (amended): a first-line dimension `n ≤ 0` is a hard input error —
`read_ini` rejects it and `main` aborts with `EXIT_FAILURE` — but `n = 1`
is accepted, since the code checks `n <= 0`, not `n <= 1`. -/
theorem read_ini_nonpos_claim (n : Int) (values : List Int)
    (moveLines : Option (List (List Char))) (h : n ≤ 0) :
    read_ini n values = none ∧
    main_model (read_ini n values) moveLines = .parseFailure :=
  ⟨read_ini_rejects_nonpos n values h,
    main_model_parse_failure n values moveLines h⟩

/-- C8 witness: rejection at `n = 0`. -/
theorem read_ini_nonpos_claim_witness :
    (0 : Int) ≤ 0 ∧
    (read_ini 0 [] = none ∧ main_model (read_ini 0 []) none = .parseFailure) :=
  ⟨by decide, read_ini_nonpos_claim 0 [] none (by decide)⟩

/-- C9: the first geometrically illegal move of a supplied move file is
reported with its 1-based index among the recognized moves, not with its
line number in the file.  With file lines `x` (ignored) and `U`, the only
recognized move sits on file line 2, the blank at cell 0 of the 2×2 grid
cannot move up, and the program reports "Invalid move at line 1" and
aborts. -/
theorem invalid_move_reported_by_move_index :
    movesOf [['x'], ['U']] = ['U'] ∧
    move_file_line [['x'], ['U']] 0 = some 2 ∧
    main_model (read_ini 2 [-1, 0, 1, 2]) (some [['x'], ['U']]) = .invalidMove 1 := by
  decide

/-- C2: the program has no inversion-parity solvability check.  The 3×3
grid obtained from the solved layout by swapping the adjacent tiles 0 and
1 is unsolvable — the spec's parity check (`solvable`, modelled from the
spec, implemented nowhere in src/main.c) rejects it — yet `solve_puzzle`
does not report failure immediately: after 1 and still after 30 iterations
of the A* loop the search is still expanding nodes rather than reporting
no solution. -/
theorem solve_search_has_no_parity_check :
    solvable [1, 0, 2, 3, 4, 5, 6, 7, -1] 3 8 = false ∧
    is_goal [1, 0, 2, 3, 4, 5, 6, 7, -1] = false ∧
    (solve_puzzle [1, 0, 2, 3, 4, 5, 6, 7, -1] 3 8 1).isOutOfFuel = true ∧
    (solve_puzzle [1, 0, 2, 3, 4, 5, 6, 7, -1] 3 8 30).isOutOfFuel = true := by
  decide

/-! ### Generic list index/permutation utilities -/


theorem getD_set_self' {α : Type} (l : List α) (i : Nat) (a d : α) (h : i < l.length) :
    (l.set i a).getD i d = a := by
  rw [List.getD_eq_getElem?_getD, List.getElem?_set_eq_of_lt _ h]
  rfl

theorem getD_set_other' {α : Type} (l : List α) (i j : Nat) (a d : α) (h : i ≠ j) :
    (l.set i a).getD j d = l.getD j d := by
  rw [List.getD_eq_getElem?_getD, List.getElem?_set_ne h, ← List.getD_eq_getElem?_getD]

theorem getD_head_perm {α : Type} (d : α) :
    ∀ (t : List α) (k : Nat) (x : α), k < t.length →
      (t.getD k d :: t.set k x).Perm (x :: t)
  | y :: r, 0, x, _ => by
    simp only [List.getD_cons_zero, List.set_cons_zero]
    exact List.Perm.swap x y r
  | y :: r, k + 1, x, hk => by
    simp only [List.getD_cons_succ, List.set_cons_succ]
    exact ((List.Perm.swap y (r.getD k d) (r.set k x)).trans
      (List.Perm.cons y (getD_head_perm d r k x (by simpa using hk)))).trans
      (List.Perm.swap x y r)

theorem set_getD_self {α : Type} (l : List α) (i : Nat) (d : α) :
    l.set i (l.getD i d) = l := by
  by_cases hi : i < l.length
  · apply List.ext_getElem?
    intro k
    by_cases hk : i = k
    · subst hk
      rw [List.getElem?_set_eq_of_lt _ hi, List.getD_eq_getElem?_getD,
        List.getElem?_eq_getElem hi]
      rfl
    · rw [List.getElem?_set_ne hk]
  · exact List.set_eq_of_length_le (by omega)

theorem swap_aux {α : Type} (d : α) :
    ∀ (l : List α) (i j : Nat), i < l.length → j < l.length → i < j →
      (((l.set i (l.getD j d)).set j (l.getD i d))).Perm l
  | x :: t, 0, j + 1, _, hj, _ => by
    simp only [List.getD_cons_succ, List.set_cons_zero, List.set_cons_succ,
      List.getD_cons_zero]
    exact getD_head_perm d t j x (by simpa using hj)
  | x :: t, i + 1, j + 1, hi, hj, hij => by
    simp only [List.getD_cons_succ, List.set_cons_succ]
    exact List.Perm.cons x (swap_aux d t i j (by simpa using hi) (by simpa using hj)
      (by omega))

theorem swap_perm {α : Type} (l : List α) (i j : Nat) (d : α)
    (hi : i < l.length) (hj : j < l.length) :
    ((l.set i (l.getD j d)).set j (l.getD i d)).Perm l := by
  rcases Nat.lt_trichotomy i j with hij | hij | hij
  · exact swap_aux d l i j hi hj hij
  · subst hij
    rw [List.set_set, set_getD_self]
  · rw [List.set_comm _ _ _ (by omega)]
    exact swap_aux d l j i hj hi hij

theorem heap_less_asymm {a b : Node} (h : heap_less a b = true) :
    heap_less b a = false := by
  simp only [heap_less, Bool.or_eq_true, Bool.and_eq_true, decide_eq_true_eq] at h
  simp only [heap_less, Bool.or_eq_false_iff, Bool.and_eq_false_iff, decide_eq_false_iff_not]
  omega

theorem heap_less_irrefl (a : Node) : heap_less a a = false := by
  simp only [heap_less, Bool.or_eq_false_iff, Bool.and_eq_false_iff, decide_eq_false_iff_not]
  omega

theorem heap_le_trans {a b c : Node} (h1 : heap_less b a = false)
    (h2 : heap_less c b = false) : heap_less c a = false := by
  simp only [heap_less, Bool.or_eq_false_iff, Bool.and_eq_false_iff,
    decide_eq_false_iff_not] at h1 h2 ⊢
  omega

theorem heap_lt_of_lt_of_le {a b c : Node} (h1 : heap_less a b = true)
    (h2 : heap_less c b = false) : heap_less a c = true := by
  simp only [heap_less, Bool.or_eq_true, Bool.and_eq_true, decide_eq_true_eq] at h1
  simp only [heap_less, Bool.or_eq_false_iff, Bool.and_eq_false_iff,
    decide_eq_false_iff_not] at h2
  simp only [heap_less, Bool.or_eq_true, Bool.and_eq_true, decide_eq_true_eq]
  omega

theorem heapInv_nil : heapInv [] := by
  intro j _ hj
  simp at hj

theorem heapInv_singleton (a : Node) : heapInv [a] := by
  intro j h1 h2
  simp at h2
  omega

theorem heapInv_root_min {l : List Node} (hinv : heapInv l) :
    ∀ j, j < l.length → heap_less (l.getD j dummyNode) (l.getD 0 dummyNode) = false := by
  intro j
  induction j using Nat.strong_induction_on with
  | _ j ih =>
    intro hj
    rcases Nat.eq_zero_or_pos j with h0 | h0
    · subst h0
      exact heap_less_irrefl _
    · have hp : (j - 1) / 2 < j := by omega
      exact heap_le_trans (ih ((j - 1) / 2) hp (by omega)) (hinv j h0 hj)

theorem siftUp_spec :
    ∀ (fuel : Nat) (l : List Node) (idx : Nat), idx < l.length → idx + 1 ≤ fuel →
      heapInvExceptUp l idx → siftUpAux l idx →
      (siftUp fuel l idx).Perm l ∧ heapInv (siftUp fuel l idx)
  | 0, _, _, _, hf, _, _ => absurd hf (by omega)
  | fuel + 1, l, idx, hidx, hf, hSU1, hSU2 => by
    rcases Nat.eq_zero_or_pos idx with h0 | h0
    · subst h0
      simp only [siftUp, if_pos rfl]
      exact ⟨List.Perm.refl l, fun j hj0 hjlen => hSU1 j hj0 hjlen (by omega)⟩
    · have hne0 : idx ≠ 0 := by omega
      have hplt : (idx - 1) / 2 < idx := by omega
      have hplen : (idx - 1) / 2 < l.length := by omega
      simp only [siftUp, if_neg hne0]
      by_cases hlt : heap_less (l.getD idx dummyNode) (l.getD ((idx - 1) / 2) dummyNode) = true
      · rw [if_pos hlt]
        set p := (idx - 1) / 2 with hp
        set l' := (l.set idx (l.getD p dummyNode)).set p (l.getD idx dummyNode) with hl'
        have hlen' : l'.length = l.length := by simp [hl']
        have hv : ∀ k, l'.getD k dummyNode =
            if k = p then l.getD idx dummyNode
            else if k = idx then l.getD p dummyNode
            else l.getD k dummyNode := by
          intro k
          by_cases hk1 : k = p
          · subst hk1
            rw [if_pos rfl, hl', getD_set_self' _ _ _ _ (by simp; omega)]
          · rw [if_neg hk1, hl', getD_set_other' _ _ _ _ _ (fun hh => hk1 hh.symm)]
            by_cases hk2 : k = idx
            · subst hk2
              rw [if_pos rfl, getD_set_self' _ _ _ _ (by omega)]
            · rw [if_neg hk2, getD_set_other' _ _ _ _ _ (fun hh => hk2 hh.symm)]
        have hSU1' : heapInvExceptUp l' p := by
          intro j hj0 hjlen hjne
          rw [hlen'] at hjlen
          rw [hv j, hv ((j - 1) / 2)]
          by_cases hj_idx : j = idx
          · subst hj_idx
            rw [if_neg (by omega), if_pos rfl, if_pos rfl]
            exact heap_less_asymm hlt
          · rw [if_neg (fun hh : j = p => hjne hh), if_neg hj_idx]
            by_cases hpar_p : (j - 1) / 2 = p
            · rw [if_pos hpar_p]
              have h1 : heap_less (l.getD j dummyNode) (l.getD p dummyNode) = false := by
                have hx := hSU1 j hj0 hjlen hj_idx
                rw [hpar_p] at hx
                exact hx
              exact heap_less_asymm (heap_lt_of_lt_of_le hlt h1)
            · rw [if_neg hpar_p]
              by_cases hpar_idx : (j - 1) / 2 = idx
              · rw [if_pos hpar_idx]
                have := hSU2 j hjlen h0 hpar_idx
                rw [← hp] at this
                exact this
              · rw [if_neg hpar_idx]
                exact hSU1 j hj0 hjlen hj_idx
        have hSU2' : siftUpAux l' p := by
          intro c hc hp0 hcp
          rw [hlen'] at hc
          have hq : (p - 1) / 2 < p := by omega
          have hqp : (p - 1) / 2 ≠ p := by omega
          have hqidx : (p - 1) / 2 ≠ idx := by omega
          rw [hv c, hv ((p - 1) / 2), if_neg hqp, if_neg hqidx]
          by_cases hce : c = idx
          · subst hce
            rw [if_neg (by omega), if_pos rfl]
            exact hSU1 p hp0 (by omega) (by omega)
          · have hcp' : c ≠ p := by
              intro hh
              rw [hh] at hcp
              omega
            rw [if_neg hcp', if_neg hce]
            exact heap_le_trans (hSU1 p hp0 (by omega) (by omega))
              (hcp ▸ hSU1 c (by omega) hc hce)
        obtain ⟨hperm, hinv⟩ := siftUp_spec fuel l' p (by omega) (by omega) hSU1' hSU2'
        exact ⟨hperm.trans (swap_perm l idx p dummyNode hidx hplen), hinv⟩
      · rw [if_neg hlt]
        refine ⟨List.Perm.refl l, ?_⟩
        intro j hj0 hjlen
        by_cases hj : j = idx
        · subst hj
          exact Bool.eq_false_iff.mpr hlt
        · exact hSU1 j hj0 hjlen hj

theorem getD_append_left {α : Type} (l : List α) (x d : α) (j : Nat) (h : j < l.length) :
    (l ++ [x]).getD j d = l.getD j d := by
  rw [List.getD_eq_getElem?_getD, List.getElem?_append, if_pos h, ← List.getD_eq_getElem?_getD]

theorem heap_push_spec (heap : List Node) (node : Node) (hinv : heapInv heap) :
    (heap_push heap node).Perm (node :: heap) ∧ heapInv (heap_push heap node) := by
  have hlen : (heap ++ [node]).length = heap.length + 1 := by simp
  have hSU1 : heapInvExceptUp (heap ++ [node]) heap.length := by
    intro j hj0 hjlen hjne
    rw [hlen] at hjlen
    have hj : j < heap.length := by omega
    rw [getD_append_left _ _ _ _ hj, getD_append_left _ _ _ _ (by omega)]
    exact hinv j hj0 hj
  have hSU2 : siftUpAux (heap ++ [node]) heap.length := by
    intro c hc _ hcp
    rw [hlen] at hc
    omega
  obtain ⟨hperm, hinv'⟩ := siftUp_spec (heap ++ [node]).length (heap ++ [node])
    ((heap ++ [node]).length - 1) (by simp) (by simp) (by simpa using hSU1)
    (by simpa using hSU2)
  refine ⟨?_, ?_⟩
  · have h1 : (heap_push heap node).Perm (heap ++ [node]) := by
      simpa [heap_push] using hperm
    exact h1.trans (List.perm_append_singleton node heap)
  · simpa [heap_push] using hinv'

theorem heap_lt_trans {a b c : Node} (h1 : heap_less a b = true)
    (h2 : heap_less b c = true) : heap_less a c = true := by
  simp only [heap_less, Bool.or_eq_true, Bool.and_eq_true, decide_eq_true_eq] at h1 h2 ⊢
  omega

theorem siftDown_spec :
    ∀ (fuel : Nat) (l : List Node) (idx : Nat), idx < l.length →
      l.length - idx ≤ fuel →
      heapInvExceptDown l idx → siftDownAux l idx →
      (siftDown fuel l idx).Perm l ∧ heapInv (siftDown fuel l idx)
  | 0, l, idx, hidx, hf, _, _ => absurd hf (by omega)
  | fuel + 1, l, idx, hidx, hf, hSD1, hSD2 => by
    simp only [siftDown]
    set size := l.length with hsize
    set left := idx * 2 + 1 with hleft
    set right := idx * 2 + 2 with hright
    set smallest1 :=
      if left < size ∧ heap_less (l.getD left dummyNode) (l.getD idx dummyNode) then left
      else idx with hsm1
    set smallest :=
      if right < size ∧ heap_less (l.getD right dummyNode) (l.getD smallest1 dummyNode) then
        right
      else smallest1 with hsm
    have hchild : ∀ j, 0 < j → ((j - 1) / 2 = idx ↔ (j = left ∨ j = right)) := by
      intro j hj
      omega
    by_cases hne : smallest ≠ idx
    · rw [if_pos hne]
      -- facts about the chosen smallest child
      have hsm_lt : smallest < size ∧ (smallest = left ∨ smallest = right) ∧
          heap_less (l.getD smallest dummyNode) (l.getD idx dummyNode) = true ∧
          (∀ c, (c = left ∨ c = right) → c < size →
            heap_less (l.getD c dummyNode) (l.getD smallest dummyNode) = false) := by
        by_cases hr : right < size ∧
            heap_less (l.getD right dummyNode) (l.getD smallest1 dummyNode) = true
        · have hsm_eq : smallest = right := by rw [hsm, if_pos (by exact hr)]
          by_cases hl : left < size ∧
              heap_less (l.getD left dummyNode) (l.getD idx dummyNode) = true
          · have hsm1_eq : smallest1 = left := by rw [hsm1, if_pos (by exact hl)]
            rw [hsm1_eq] at hr
            refine ⟨by omega, Or.inr hsm_eq, ?_, ?_⟩
            · rw [hsm_eq]
              exact heap_lt_trans hr.2 hl.2
            · intro c hc hcs
              rcases hc with hc | hc <;> subst hc <;> rw [hsm_eq]
              · exact heap_less_asymm hr.2
              · exact heap_less_irrefl _
          · have hsm1_eq : smallest1 = idx := by rw [hsm1, if_neg (by exact hl)]
            rw [hsm1_eq] at hr
            refine ⟨by omega, Or.inr hsm_eq, by rw [hsm_eq]; exact hr.2, ?_⟩
            intro c hc hcs
            rcases hc with hc | hc <;> subst hc <;> rw [hsm_eq]
            · have hlge : heap_less (l.getD left dummyNode) (l.getD idx dummyNode) = false := by
                rcases Bool.eq_false_or_eq_true
                  (heap_less (l.getD left dummyNode) (l.getD idx dummyNode)) with h | h
                · exact absurd ⟨hcs, h⟩ hl
                · exact h
              exact heap_less_asymm (heap_lt_of_lt_of_le hr.2 hlge)
            · exact heap_less_irrefl _
        · have hsm_eq : smallest = smallest1 := by rw [hsm, if_neg (by exact hr)]
          by_cases hl : left < size ∧
              heap_less (l.getD left dummyNode) (l.getD idx dummyNode) = true
          · have hsm1_eq : smallest1 = left := by rw [hsm1, if_pos (by exact hl)]
            rw [hsm1_eq] at hsm_eq hr
            refine ⟨by omega, Or.inl hsm_eq, by rw [hsm_eq]; exact hl.2, ?_⟩
            intro c hc hcs
            rcases hc with hc | hc <;> subst hc <;> rw [hsm_eq]
            · exact heap_less_irrefl _
            · rcases Bool.eq_false_or_eq_true
                (heap_less (l.getD right dummyNode) (l.getD left dummyNode)) with h | h
              · exact absurd ⟨hcs, h⟩ hr
              · exact h
          · have hsm1_eq : smallest1 = idx := by rw [hsm1, if_neg (by exact hl)]
            rw [hsm1_eq] at hsm_eq
            exact absurd hsm_eq hne
      obtain ⟨hslt, hsor, hslt_idx, hsge⟩ := hsm_lt
      have hs_gt : idx < smallest := by
        rcases hsor with h | h <;> omega
      set l' := (l.set idx (l.getD smallest dummyNode)).set smallest
        (l.getD idx dummyNode) with hl'
      have hlen' : l'.length = l.length := by simp [hl']
      have hv : ∀ k, l'.getD k dummyNode =
          if k = smallest then l.getD idx dummyNode
          else if k = idx then l.getD smallest dummyNode
          else l.getD k dummyNode := by
        intro k
        by_cases hk1 : k = smallest
        · subst hk1
          rw [if_pos rfl, hl', getD_set_self' _ _ _ _ (by simp; omega)]
        · rw [if_neg hk1, hl', getD_set_other' _ _ _ _ _ (fun hh => hk1 hh.symm)]
          by_cases hk2 : k = idx
          · subst hk2
            rw [if_pos rfl, getD_set_self' _ _ _ _ (by omega)]
          · rw [if_neg hk2, getD_set_other' _ _ _ _ _ (fun hh => hk2 hh.symm)]
      have hSD1' : heapInvExceptDown l' smallest := by
        intro j hj0 hjlen hjpar
        rw [hlen'] at hjlen
        rw [hv j, hv ((j - 1) / 2)]
        by_cases hj_sm : j = smallest
        · have hpar_j : (j - 1) / 2 = idx := by
            rcases hsor with h | h <;> omega
          rw [if_pos hj_sm, hpar_j, if_neg (by omega), if_pos rfl]
          exact heap_less_asymm hslt_idx
        · rw [if_neg hj_sm]
          by_cases hj_idx : j = idx
          · have hz : 0 < idx := by omega
            have hq_ne_sm : (j - 1) / 2 ≠ smallest := by omega
            have hq_ne_idx : (j - 1) / 2 ≠ idx := by omega
            rw [if_pos hj_idx, if_neg hq_ne_sm, if_neg hq_ne_idx]
            have hpj : (j - 1) / 2 = (idx - 1) / 2 := by omega
            rw [hpj]
            exact hSD2 smallest (by omega) hz (by rcases hsor with h | h <;> omega)
          · rw [if_neg hj_idx]
            by_cases hpar_idx : (j - 1) / 2 = idx
            · have hj_lr : j = left ∨ j = right := (hchild j hj0).mp hpar_idx
              rw [hpar_idx, if_neg (by omega), if_pos rfl]
              exact hsge j hj_lr (by omega)
            · have hpar_ne_sm : (j - 1) / 2 ≠ smallest := hjpar
              rw [if_neg hpar_ne_sm, if_neg hpar_idx]
              exact hSD1 j hj0 hjlen hpar_idx
      have hSD2' : siftDownAux l' smallest := by
        intro c hc hs0 hcp
        rw [hlen'] at hc
        have hc_ne_sm : c ≠ smallest := by omega
        have hc_ne_idx : c ≠ idx := by omega
        have hpar_sm : (smallest - 1) / 2 = idx := by
          rcases hsor with h | h <;> omega
        rw [hv c, hv ((smallest - 1) / 2), if_neg hc_ne_sm, if_neg hc_ne_idx, hpar_sm,
          if_neg (by omega), if_pos rfl, ← hcp]
        exact hSD1 c (by omega) hc (by omega)
      obtain ⟨hperm, hinv⟩ := siftDown_spec fuel l' smallest (by omega) (by omega)
        hSD1' hSD2'
      refine ⟨hperm.trans ?_, hinv⟩
      rw [hl']
      exact swap_perm l idx smallest dummyNode hidx (by omega)
    · rw [if_neg hne]
      push_neg at hne
      refine ⟨List.Perm.refl l, ?_⟩
      intro j hj0 hjlen
      by_cases hpar : (j - 1) / 2 = idx
      · have hj_lr : j = left ∨ j = right := (hchild j hj0).mp hpar
        rw [hpar]
        have hsm1_idx : smallest1 = idx := by
          rcases hc1 : (decide (left < size ∧ heap_less (l.getD left dummyNode)
              (l.getD idx dummyNode) = true)) with h | h
          · rw [hsm1, if_neg (by simpa using hc1)]
          · exfalso
            have hl := of_decide_eq_true hc1
            have : smallest1 = left := by rw [hsm1, if_pos (by exact hl)]
            rcases hc2 : (decide (right < size ∧ heap_less (l.getD right dummyNode)
                (l.getD smallest1 dummyNode) = true)) with h2 | h2
            · have : smallest = smallest1 := by rw [hsm, if_neg (by simpa using hc2)]
              omega
            · have : smallest = right := by rw [hsm, if_pos (of_decide_eq_true hc2)]
              omega
        rcases hj_lr with hj | hj <;> subst hj
        · rcases Bool.eq_false_or_eq_true
            (heap_less (l.getD left dummyNode) (l.getD idx dummyNode)) with h | h
          · exfalso
            have : smallest1 = left := by rw [hsm1, if_pos ⟨by omega, h⟩]
            omega
          · exact h
        · rcases Bool.eq_false_or_eq_true
            (heap_less (l.getD right dummyNode) (l.getD idx dummyNode)) with h | h
          · exfalso
            have : smallest = right := by
              rw [hsm, if_pos ⟨by omega, by rw [hsm1_idx]; exact h⟩]
            omega
          · exact h
      · exact hSD1 j hj0 hjlen hpar

theorem getD_take {α : Type} (l : List α) (m j : Nat) (d : α) (h : j < m) :
    (l.take m).getD j d = l.getD j d := by
  rw [List.getD_eq_getElem?_getD, List.getElem?_take, if_pos h, ← List.getD_eq_getElem?_getD]

theorem heap_pop_empty : heap_pop [] = (none, []) := rfl

theorem heap_pop_some (heap : List Node) (hne : heap ≠ []) :
    ∃ top rest, heap_pop heap = (some top, rest) := by
  cases heap with
  | nil => exact absurd rfl hne
  | cons x t =>
    simp only [heap_pop]
    by_cases h : (x :: t).length - 1 = 0
    · rw [if_pos h]
      exact ⟨x, [], rfl⟩
    · rw [if_neg h]
      exact ⟨x, _, rfl⟩

theorem heap_pop_spec (heap : List Node) (hinv : heapInv heap) (top : Node)
    (rest : List Node) (h : heap_pop heap = (some top, rest)) :
    (top :: rest).Perm heap ∧ heapInv rest ∧
    ∀ x ∈ heap, heap_less x top = false := by
  have hmin : ∀ x ∈ heap, heap_less x (heap.getD 0 dummyNode) = false := by
    intro x hx
    obtain ⟨i, hi, hix⟩ := List.mem_iff_getElem.mp hx
    have hgi : heap.getD i dummyNode = x := by
      rw [List.getD_eq_getElem?_getD, List.getElem?_eq_getElem hi]
      simp only [Option.getD_some]
      exact hix
    rw [← hgi]
    exact heapInv_root_min hinv i hi
  cases heap with
  | nil => cases h
  | cons x t =>
    have hx0 : (x :: t).getD 0 dummyNode = x := rfl
    rw [hx0] at hmin
    simp only [heap_pop] at h
    by_cases hlen : (x :: t).length - 1 = 0
    · rw [if_pos hlen] at h
      have ht : t = [] := by
        have h1 : t.length = 0 := by simpa using hlen
        simpa using h1
      subst ht
      simp only [Prod.mk.injEq, Option.some.injEq] at h
      obtain ⟨h1, h2⟩ := h
      subst h1
      subst h2
      exact ⟨List.Perm.refl _, heapInv_nil, hmin⟩
    · rw [if_neg hlen] at h
      have htne : t ≠ [] := by
        intro hc
        rw [hc] at hlen
        exact hlen rfl
      have htl : 0 < t.length := by
        cases t with
        | nil => exact absurd rfl htne
        | cons y r => simp
      have hsz : (x :: t).length - 1 = t.length := by simp
      have hlast : (x :: t).getD ((x :: t).length - 1) dummyNode =
          t.getD (t.length - 1) dummyNode := by
        rw [hsz]
        have h1 : t.length = (t.length - 1) + 1 := by omega
        rw [h1]
        rfl
      have hlast2 : t.getD (t.length - 1) dummyNode = t.getLast htne := by
        rw [List.getD_eq_getElem?_getD,
          List.getElem?_eq_getElem (by omega : t.length - 1 < t.length)]
        simp [List.getLast_eq_getElem]
      have hset : ((x :: t).set 0 ((x :: t).getD ((x :: t).length - 1) dummyNode)) =
          (t.getLast htne) :: t := by
        rw [hlast, hlast2]
        rfl
      have hheap' : (((x :: t).set 0 ((x :: t).getD ((x :: t).length - 1) dummyNode)).take
          ((x :: t).length - 1)) = (t.getLast htne) :: t.dropLast := by
        rw [hset, hsz]
        have h1 : t.length = (t.length - 1) + 1 := by omega
        rw [h1, List.take_succ_cons, List.dropLast_eq_take]
      rw [hheap'] at h
      have hlen' : ((t.getLast htne) :: t.dropLast).length = t.length := by
        simp [List.length_dropLast]
        omega
      have hvals : ∀ j, 0 < j → j < t.length →
          ((t.getLast htne) :: t.dropLast).getD j dummyNode =
            (x :: t).getD j dummyNode := by
        intro j hj0 hjlen
        have h1 : j = (j - 1) + 1 := by omega
        rw [h1]
        show (t.dropLast).getD (j - 1) dummyNode = t.getD (j - 1) dummyNode
        rw [List.dropLast_eq_take, getD_take]
        omega
      have hSD1 : heapInvExceptDown ((t.getLast htne) :: t.dropLast) 0 := by
        intro j hj0 hjlen hjpar
        rw [hlen'] at hjlen
        have hp0 : 0 < (j - 1) / 2 := by omega
        rw [hvals j hj0 hjlen, hvals ((j - 1) / 2) hp0 (by omega)]
        exact hinv j hj0 (by simp; omega)
      have hSD2 : siftDownAux ((t.getLast htne) :: t.dropLast) 0 := by
        intro c hc hc0 hcp
        omega
      obtain ⟨hperm, hinv'⟩ := siftDown_spec ((t.getLast htne) :: t.dropLast).length
        ((t.getLast htne) :: t.dropLast) 0 (by rw [hlen']; omega) (by omega) hSD1 hSD2
      simp only [Prod.mk.injEq, Option.some.injEq] at h
      obtain ⟨h1, h2⟩ := h
      subst h1
      subst h2
      refine ⟨?_, hinv', hmin⟩
      refine List.Perm.cons _ (hperm.trans ?_)
      have hsplit : t.dropLast ++ [t.getLast htne] = t := List.dropLast_append_getLast htne
      have hp2 : ((t.getLast htne) :: t.dropLast).Perm (t.dropLast ++ [t.getLast htne]) :=
        (List.perm_append_singleton (t.getLast htne) t.dropLast).symm
      rw [hsplit] at hp2
      exact hp2

/-! ### Path execution and grid-invariant lemmas -/

theorem runMoves_nil (n : Nat) (s : List Int × Nat) : runMoves n s [] = some s := rfl

theorem runMoves_append (n : Nat) : ∀ (ms1 : List Char) (ms2 : List Char)
    (s : List Int × Nat),
    runMoves n s (ms1 ++ ms2) =
      match runMoves n s ms1 with
      | none => none
      | some t => runMoves n t ms2
  | [], ms2, s => rfl
  | mv :: rest, ms2, s => by
    rw [List.cons_append]
    cases h : apply_move s.1 n s.2 mv <;>
      simp [runMoves, h, runMoves_append n rest ms2]

theorem runMoves_singleton (n : Nat) (s : List Int × Nat) (mv : Char) :
    runMoves n s [mv] = apply_move s.1 n s.2 mv := by
  cases h : apply_move s.1 n s.2 mv <;> simp [runMoves, h]

theorem apply_move_perm {state : List Int} {n blank : Nat} {mv : Char} {s' : List Int}
    {b' : Nat} (hb : blank < n * n) (hlen : state.length = n * n)
    (hblank : state.getD blank 0 = -1)
    (h : apply_move state n blank mv = some (s', b')) : s'.Perm state := by
  obtain ⟨hs, hb', hne, -⟩ := apply_move_shape hb h
  subst hs
  have := swap_perm state b' blank 0 (by omega) (by omega)
  rwa [hblank] at this

theorem gridOK_other {n : Nat} {s : List Int × Nat} (hok : gridOK n s) :
    ∀ i, i < n * n → i ≠ s.2 → s.1.getD i 0 ≠ -1 := by
  obtain ⟨hlen, hb, hcount, hblank⟩ := hok
  intro i hi hne hiv
  have hgi : s.1[i] = (-1 : Int) := by rw [← getD_eq_getElem (by omega)]; exact hiv
  have hset : (s.1.set i 7).count (-1) = 0 := by
    rw [List.count_set _ _ _ _ (by omega), hgi]
    simp [hcount]
  have hlen2 : s.2 < (s.1.set i 7).length := by simp; omega
  have hgb : (s.1.set i 7)[s.2] = (-1 : Int) := by
    rw [List.getElem_set_ne (fun hh : i = s.2 => hne hh), ← getD_eq_getElem (by omega)]
    exact hblank
  have : 0 < (s.1.set i 7).count (-1) :=
    List.count_pos_iff.mpr (hgb ▸ List.getElem_mem _)
  omega

theorem gridOK_blank_det {n : Nat} {s : List Int × Nat} (hok : gridOK n s)
    {b2 : Nat} (hb2 : b2 < n * n) (hv : s.1.getD b2 0 = -1) : b2 = s.2 := by
  by_contra hne
  exact gridOK_other hok b2 hb2 hne hv

theorem apply_move_grid_ne {n : Nat} {s : List Int × Nat} (hok : gridOK n s)
    {mv : Char} {s' : List Int} {b' : Nat}
    (h : apply_move s.1 n s.2 mv = some (s', b')) : s' ≠ s.1 := by
  obtain ⟨hlen, hb, hcount, hblank⟩ := hok
  obtain ⟨hs, hb', hne, -⟩ := apply_move_shape hb h
  intro heq
  have h1 : s'.getD b' 0 = -1 := by
    rw [hs]; exact swap_getD_target s.1 s.2 b' (by omega) hne
  rw [heq] at h1
  exact gridOK_other ⟨hlen, hb, hcount, hblank⟩ b' hb' hne h1

theorem gridOK_step {n : Nat} {s t : List Int × Nat} (hok : gridOK n s)
    {mv : Char} (h : apply_move s.1 n s.2 mv = some t) : gridOK n t := by
  obtain ⟨hlen, hb, hcount, hblank⟩ := hok
  obtain ⟨t1, t2⟩ := t
  obtain ⟨hs, hb', hne, -⟩ := apply_move_shape hb h
  refine ⟨by rw [hs, swap_len]; exact hlen, hb', ?_, ?_⟩
  · rw [hs, swap_count s.1 s.2 t2 (by omega) (by omega) hne hblank]
    exact hcount
  · rw [hs]
    exact swap_getD_target s.1 s.2 t2 (by omega) hne

theorem gridOK_run {n : Nat} : ∀ (ms : List Char) (s t : List Int × Nat),
    gridOK n s → runMoves n s ms = some t → gridOK n t
  | [], s, t, hok, h => by
    rw [runMoves_nil] at h
    cases h
    exact hok
  | mv :: rest, s, t, hok, h => by
    rw [show runMoves n s (mv :: rest) =
        (match apply_move s.1 n s.2 mv with
         | none => none
         | some s' => runMoves n s' rest) from rfl] at h
    cases hm : apply_move s.1 n s.2 mv with
    | none => rw [hm] at h; cases h
    | some u =>
      rw [hm] at h
      exact gridOK_run rest u t (gridOK_step hok hm) h

theorem runMoves_perm {n : Nat} : ∀ (ms : List Char) (s t : List Int × Nat),
    gridOK n s → runMoves n s ms = some t → t.1.Perm s.1
  | [], s, t, _, h => by
    rw [runMoves_nil] at h
    cases h
    exact List.Perm.refl _
  | mv :: rest, s, t, hok, h => by
    rw [show runMoves n s (mv :: rest) =
        (match apply_move s.1 n s.2 mv with
         | none => none
         | some s' => runMoves n s' rest) from rfl] at h
    cases hm : apply_move s.1 n s.2 mv with
    | none => rw [hm] at h; cases h
    | some u =>
      rw [hm] at h
      obtain ⟨u1, u2⟩ := u
      exact (runMoves_perm rest (u1, u2) t (gridOK_step hok hm) h).trans
        (apply_move_perm hok.2.1 hok.1 hok.2.2.2 hm)

/-! ### The goal layout is the unique grid accepted by is_goal -/

theorem igGo_vals : ∀ (l : List Int) (i : Nat), igGo i l = true →
    ∀ j, j < l.length → l.getD j 0 = if j = l.length - 1 then -1 else ((i + j : Nat) : Int)
  | [], _, h, _, hj => by simp at hj
  | [v], i, h, j, hj => by
    simp only [igGo, decide_eq_true_eq] at h
    have hj0 : j = 0 := by simp at hj; omega
    subst hj0
    simp [h]
  | v :: w :: rest, i, h, j, hj => by
    simp only [igGo, Bool.and_eq_true, decide_eq_true_eq] at h
    obtain ⟨hv, hrest⟩ := h
    match j with
    | 0 =>
      have hc : ¬((0 : Nat) = (v :: w :: rest).length - 1) := by simp
      rw [if_neg hc]
      simpa using hv
    | k + 1 =>
      have hk : k < (w :: rest).length := by simp at hj ⊢; omega
      have hrec := igGo_vals (w :: rest) (i + 1) hrest k hk
      simp only [List.getD_cons_succ]
      rw [hrec]
      by_cases hc : k = (w :: rest).length - 1
      · rw [if_pos hc, if_pos (by simp only [List.length_cons] at hc ⊢; omega)]
      · rw [if_neg hc, if_neg (by simp only [List.length_cons] at hc ⊢; omega)]
        congr 1
        omega

theorem igGo_of_vals : ∀ (l : List Int) (i : Nat), l ≠ [] →
    (∀ j, j < l.length → l.getD j 0 = if j = l.length - 1 then -1 else ((i + j : Nat) : Int)) →
    igGo i l = true
  | [], _, hne, _ => absurd rfl hne
  | [v], i, _, hv => by
    have h0 := hv 0 (by simp)
    simp at h0
    simp [igGo, h0]
  | v :: w :: rest, i, _, hv => by
    simp only [igGo, Bool.and_eq_true, decide_eq_true_eq]
    constructor
    · have h0 := hv 0 (by simp)
      rw [if_neg (by simp)] at h0
      simpa using h0
    · apply igGo_of_vals (w :: rest) (i + 1) (by simp)
      intro j hj
      have hj' : j + 1 < (v :: w :: rest).length := by simp at hj ⊢; omega
      have hstep := hv (j + 1) hj'
      simp only [List.getD_cons_succ] at hstep
      rw [hstep]
      by_cases hc : j = (w :: rest).length - 1
      · rw [if_pos (by simp only [List.length_cons] at hc ⊢; omega), if_pos hc]
      · rw [if_neg (by simp only [List.length_cons] at hc ⊢; omega), if_neg hc]
        congr 1
        omega

theorem goal_layout_length (n : Nat) : (goal_layout n).length = n * n := by
  simp [goal_layout]

theorem goal_layout_getD (n : Nat) (j : Nat) (hj : j < n * n) :
    (goal_layout n).getD j 0 = if j = n * n - 1 then -1 else (j : Int) := by
  unfold goal_layout
  rw [List.getD_eq_getElem?_getD, List.getElem?_map, List.getElem?_range hj]
  rfl

theorem is_goal_eq_goal_layout {n : Nat} {s : List Int} (hlen : s.length = n * n)
    (hg : is_goal s = true) : s = goal_layout n := by
  apply List.ext_getElem (by rw [hlen, goal_layout_length])
  intro j h1 h2
  have hv := igGo_vals s 0 hg j h1
  rw [← getD_eq_getElem h1, ← getD_eq_getElem h2, hv,
    goal_layout_getD n j (by omega), hlen]
  by_cases hc : j = n * n - 1
  · rw [if_pos hc, if_pos hc]
  · rw [if_neg hc, if_neg hc]
    simp

theorem is_goal_goal_layout (n : Nat) (hn : 0 < n) : is_goal (goal_layout n) = true := by
  apply igGo_of_vals (goal_layout n) 0
  · intro hnil
    have hlen := goal_layout_length n
    rw [hnil] at hlen
    simp only [List.length_nil] at hlen
    have hpos : 0 < n * n := Nat.mul_pos hn hn
    omega
  · intro j hj
    rw [goal_layout_length] at hj
    rw [goal_layout_getD n j hj, goal_layout_length]
    by_cases hc : j = n * n - 1
    · rw [if_pos hc, if_pos hc]
    · rw [if_neg hc, if_neg hc]
      simp

theorem gridOK_goal_blank {n : Nat} {s : List Int × Nat} (hok : gridOK n s)
    (hg : is_goal s.1 = true) : s = (goal_layout n, n * n - 1) := by
  obtain ⟨hlen, hb, hcount, hblank⟩ := hok
  have hs : s.1 = goal_layout n := is_goal_eq_goal_layout hlen hg
  have hb2 : s.2 = n * n - 1 := by
    by_contra hne
    have := goal_layout_getD n s.2 hb
    rw [if_neg hne] at this
    rw [hs, this] at hblank
    omega
  obtain ⟨s1, s2⟩ := s
  simp only at hs hb2
  rw [hs, hb2]

/-! ### Heuristic consistency along a path -/

theorem manhattan_step_le {n : Nat} {s t : List Int × Nat} (hok : gridOK n s) {mv : Char}
    (h : apply_move s.1 n s.2 mv = some t) :
    manhattan_distance s.1 n ≤ manhattan_distance t.1 n + 1 := by
  obtain ⟨t1, t2⟩ := t
  obtain ⟨hmd, hδ⟩ := manhattan_move s.1 n s.2 mv t1 t2 hok.1 hok.2.1 hok.2.2.2
    (gridOK_other hok) h
  rcases hδ with h1 | h1 <;> rw [h1] at hmd <;> simp only at hmd ⊢ <;> omega

theorem manhattan_run_le {n : Nat} : ∀ (ms : List Char) (s t : List Int × Nat),
    gridOK n s → runMoves n s ms = some t →
    manhattan_distance s.1 n ≤ manhattan_distance t.1 n + (ms.length : Int)
  | [], s, t, _, h => by
    rw [runMoves_nil] at h
    cases h
    simp
  | mv :: rest, s, t, hok, h => by
    rw [show runMoves n s (mv :: rest) =
        (match apply_move s.1 n s.2 mv with
         | none => none
         | some s' => runMoves n s' rest) from rfl] at h
    cases hm : apply_move s.1 n s.2 mv with
    | none => rw [hm] at h; cases h
    | some u =>
      rw [hm] at h
      have h1 := manhattan_step_le hok hm
      have h2 := manhattan_run_le rest u t (gridOK_step hok hm) h
      simp only [List.length_cons]
      push_cast
      push_cast at h2
      omega

theorem validNode_hval {n : Nat} {start : List Int × Nat} :
    ∀ nd : Node, validNode n start nd → nd.hval = manhattan_distance nd.state n
  | .mk _ _ _ _ none _, hv => hv.2.2
  | .mk _ _ _ _ (some _) _, hv => hv.2.2.2

theorem validNode_g_eq_chain {n : Nat} {start : List Int × Nat} :
    ∀ nd : Node, validNode n start nd → ((chainMoves nd).length : Int) = nd.g
  | .mk s b g h none mv, hv => by
    simp [chainMoves, Node.g, hv.2.1]
  | .mk s b g h (some p) mv, hv => by
    have hrec := validNode_g_eq_chain p hv.1
    have hg : g = p.g + 1 := hv.2.2.1
    show (((mv :: chainMoves p).length : Nat) : Int) = g
    simp only [List.length_cons]
    push_cast
    omega

theorem validNode_g_nonneg {n : Nat} {start : List Int × Nat} (nd : Node)
    (hv : validNode n start nd) : 0 ≤ nd.g :=
  validNode_g_eq_chain nd hv ▸ Int.natCast_nonneg _

theorem validNode_run {n : Nat} {start : List Int × Nat} :
    ∀ nd : Node, validNode n start nd →
      runMoves n start (chainMoves nd).reverse = some (nodePos nd)
  | .mk s b g h none mv, hv => by
    simp only [chainMoves, List.reverse_nil, runMoves_nil, nodePos, Node.state,
      Node.blank_index]
    rw [hv.1]
  | .mk s b g h (some p) mv, hv => by
    obtain ⟨hvp, hap, -, -⟩ := hv
    have hrec := validNode_run p hvp
    simp only [chainMoves, List.reverse_cons]
    rw [runMoves_append, hrec]
    show runMoves n (nodePos p) [mv] = _
    rw [runMoves_singleton]
    exact hap

theorem nodePos_mem_chainStates : ∀ nd : Node, nodePos nd ∈ chainStates nd
  | .mk s b g h none mv => by
    show (s, b) ∈ [(s, b)]
    simp
  | .mk s b g h (some p) mv => by
    show (s, b) ∈ (s, b) :: chainStates p
    simp

theorem chainStates_length : ∀ nd : Node,
    (chainStates nd).length = (chainMoves nd).length + 1
  | .mk s b g h none mv => by simp [chainStates, chainMoves]
  | .mk s b g h (some p) mv => by
    simp [chainStates, chainMoves, chainStates_length p]

theorem validNode_chain_gridOK {n : Nat} {start : List Int × Nat} (hok : gridOK n start) :
    ∀ nd : Node, validNode n start nd → ∀ c ∈ chainStates nd, gridOK n c
  | .mk s b g h none mv, hv, c, hc => by
    simp only [chainStates, List.mem_singleton] at hc
    rw [hc, hv.1]
    exact hok
  | .mk s b g h (some p) mv, hv, c, hc => by
    simp only [chainStates, List.mem_cons] at hc
    rcases hc with rfl | hc
    · exact gridOK_step
        (validNode_chain_gridOK hok p hv.1 (nodePos p) (nodePos_mem_chainStates p)) hv.2.1
    · exact validNode_chain_gridOK hok p hv.1 c hc

theorem validNode_gridOK {n : Nat} {start : List Int × Nat} (hok : gridOK n start)
    (nd : Node) (hv : validNode n start nd) : gridOK n (nodePos nd) :=
  validNode_chain_gridOK hok nd hv (nodePos nd) (nodePos_mem_chainStates nd)

theorem validNode_chain_perm {n : Nat} {start : List Int × Nat} (hok : gridOK n start) :
    ∀ nd : Node, validNode n start nd → ∀ c ∈ chainStates nd, c.1.Perm start.1
  | .mk s b g h none mv, hv, c, hc => by
    simp only [chainStates, List.mem_singleton] at hc
    rw [hc, hv.1]
  | .mk s b g h (some p) mv, hv, c, hc => by
    simp only [chainStates, List.mem_cons] at hc
    have hpok := validNode_chain_gridOK hok p hv.1 (nodePos p) (nodePos_mem_chainStates p)
    rcases hc with rfl | hc
    · exact (apply_move_perm hpok.2.1 hpok.1 hpok.2.2.2 hv.2.1).trans
        (validNode_chain_perm hok p hv.1 (nodePos p) (nodePos_mem_chainStates p))
    · exact validNode_chain_perm hok p hv.1 c hc

theorem ancRec_self : ∀ nd : Node, ∀ V : VisitedSet, ancRec V nd →
    ∃ r, recordedG V nd.state = some r ∧ r ≤ nd.g
  | .mk _ _ _ _ none _, _, ha => ha
  | .mk _ _ _ _ (some _) _, _, ha => ha.1

theorem ancRec_mono {V V' : VisitedSet}
    (hm : ∀ s r, recordedG V s = some r → ∃ r2, recordedG V' s = some r2 ∧ r2 ≤ r) :
    ∀ nd : Node, ancRec V nd → ancRec V' nd
  | .mk s b g h none mv, ha => by
    obtain ⟨r, hr, hle⟩ := ha
    obtain ⟨r2, h2, hle2⟩ := hm s r hr
    exact ⟨r2, h2, by omega⟩
  | .mk s b g h (some p) mv, ha => by
    obtain ⟨⟨r, hr, hle⟩, hp⟩ := ha
    obtain ⟨r2, h2, hle2⟩ := hm s r hr
    exact ⟨⟨r2, h2, by omega⟩, ancRec_mono hm p hp⟩

theorem chain_recorded_le {n : Nat} {start : List Int × Nat} {V : VisitedSet} :
    ∀ nd : Node, validNode n start nd → ancRec V nd →
      ∀ c ∈ chainStates nd, ∃ r, recordedG V c.1 = some r ∧ r ≤ nd.g
  | .mk s b g h none mv, hv, ha, c, hc => by
    simp only [chainStates, List.mem_singleton] at hc
    subst hc
    exact ha
  | .mk s b g h (some p) mv, hv, ha, c, hc => by
    simp only [chainStates, List.mem_cons] at hc
    rcases hc with rfl | hc
    · exact ha.1
    · obtain ⟨r, hr, hle⟩ := chain_recorded_le p hv.1 ha.2 c hc
      have hg : g = p.g + 1 := hv.2.2.1
      exact ⟨r, hr, by simp only [Node.g]; omega⟩

theorem chain_grid_nodup {n : Nat} {start : List Int × Nat} (hok : gridOK n start)
    (nd : Node) (hv : validNode n start nd) (hnd : (chainStates nd).Nodup) :
    ((chainStates nd).map Prod.fst).Nodup := by
  apply hnd.map_on
  intro x hx y hy hxy
  have hxok := validNode_chain_gridOK hok nd hv x hx
  have hyok := validNode_chain_gridOK hok nd hv y hy
  have hb : x.2 = y.2 := by
    apply gridOK_blank_det hyok hxok.2.1
    rw [← hxy]
    exact hxok.2.2.2
  obtain ⟨x1, x2⟩ := x
  obtain ⟨y1, y2⟩ := y
  simp only at hxy hb
  rw [hxy, hb]

theorem mem_stateSpace {n : Nat} {l : List Int} (h : l.Perm (goal_layout n)) :
    l ∈ stateSpace n :=
  List.mem_toFinset.mpr (List.mem_permutations.mpr h)

theorem chain_length_le_card {n : Nat} {start : List Int × Nat} (hok : gridOK n start)
    (hperm : start.1.Perm (goal_layout n))
    (nd : Node) (hv : validNode n start nd) (hnd : (chainStates nd).Nodup) :
    (chainStates nd).length ≤ (stateSpace n).card := by
  have hmap := chain_grid_nodup hok nd hv hnd
  have hsub : ((chainStates nd).map Prod.fst).toFinset ⊆ stateSpace n := by
    intro l hl
    simp only [List.mem_toFinset, List.mem_map] at hl
    obtain ⟨c, hc, rfl⟩ := hl
    exact mem_stateSpace ((validNode_chain_perm hok nd hv c hc).trans hperm)
  calc (chainStates nd).length = ((chainStates nd).map Prod.fst).length := by simp
    _ = ((chainStates nd).map Prod.fst).toFinset.card :=
        (List.toFinset_card_of_nodup hmap).symm
    _ ≤ (stateSpace n).card := Finset.card_le_card hsub

/-! ### Semantic view of the visited-table operations through recordedG -/

theorem skipChain_fst_firstMatch (hash : Nat) (s : List Int) (g : Int) :
    ∀ chain : List VisitedEntry, (skipChain hash s g chain).1 =
      match firstMatch hash s chain with
      | none => false
      | some e => decide (e.g ≤ g)
  | [] => rfl
  | e :: rest => by
    by_cases hm : entry_matches e hash s
    · simp only [skipChain, firstMatch, if_pos hm]
      by_cases hg : e.g ≤ g
      · rw [if_pos hg]
        simp [hg]
      · rw [if_neg hg]
        simp [hg]
    · simp only [skipChain, firstMatch, if_neg hm]
      exact skipChain_fst_firstMatch hash s g rest

theorem skipChain_snd_same (hash : Nat) (s : List Int) (g : Int) :
    ∀ chain : List VisitedEntry,
      firstMatch hash s (skipChain hash s g chain).2 =
        match firstMatch hash s chain with
        | none => none
        | some e => some (if e.g ≤ g then e else { e with g := g })
  | [] => rfl
  | e :: rest => by
    by_cases hm : entry_matches e hash s
    · by_cases hg : e.g ≤ g
      · simp only [skipChain, if_pos hm, if_pos hg, firstMatch]
      · have hm' : entry_matches { e with g := g } hash s := hm
        simp only [skipChain, if_pos hm, if_neg hg, firstMatch, if_pos hm']
    · simp only [skipChain, if_neg hm, firstMatch, if_neg hm]
      exact skipChain_snd_same hash s g rest

theorem skipChain_snd_other (hash : Nat) (s : List Int) (g : Int) (hash' : Nat)
    (s' : List Int) (hne : s' ≠ s) :
    ∀ chain : List VisitedEntry,
      firstMatch hash' s' (skipChain hash s g chain).2 = firstMatch hash' s' chain
  | [] => rfl
  | e :: rest => by
    by_cases hm : entry_matches e hash s
    · by_cases hg : e.g ≤ g
      · simp only [skipChain, if_pos hm, if_pos hg]
      · simp only [skipChain, if_pos hm, if_neg hg, firstMatch]
        have hm' : ¬entry_matches e hash' s' := by
          intro hc
          exact hne (hc.2.symm.trans hm.2)
        have hm'' : ¬entry_matches { e with g := g } hash' s' := hm'
        rw [if_neg hm'', if_neg hm']
    · simp only [skipChain, if_neg hm, firstMatch]
      by_cases hm' : entry_matches e hash' s'
      · rw [if_pos hm', if_pos hm']
      · rw [if_neg hm', if_neg hm']
        exact skipChain_snd_other hash s g hash' s' hne rest

theorem recordedG_vss_self (V : VisitedSet) (s : List Int) (g : Int) :
    recordedG (visited_should_skip V (fnv1a_hash s) s g).2 s =
      match recordedG V s with
      | none => none
      | some rg => some (if rg ≤ g then rg else g) := by
  unfold recordedG visited_should_skip
  simp only [eq_self_iff_true, if_true]
  rw [skipChain_snd_same]
  cases hfm : firstMatch (fnv1a_hash s) s (V.buckets (fnv1a_hash s % V.bucket_count)) with
  | none => rfl
  | some e =>
    by_cases hg : e.g ≤ g
    · simp [if_pos hg]
    · simp [if_neg hg]

theorem recordedG_vss_other (V : VisitedSet) (s : List Int) (g : Int) (s' : List Int)
    (hne : s' ≠ s) :
    recordedG (visited_should_skip V (fnv1a_hash s) s g).2 s' = recordedG V s' := by
  unfold recordedG visited_should_skip
  simp only
  by_cases hb : fnv1a_hash s' % V.bucket_count = fnv1a_hash s % V.bucket_count
  · rw [if_pos hb, hb, skipChain_snd_other _ _ _ _ _ hne]
  · rw [if_neg hb]

theorem visited_should_skip_fst (V : VisitedSet) (s : List Int) (g : Int) :
    (visited_should_skip V (fnv1a_hash s) s g).1 =
      match recordedG V s with
      | none => false
      | some rg => decide (rg ≤ g) := by
  unfold recordedG visited_should_skip
  simp only
  rw [skipChain_fst_firstMatch]
  cases hfm : firstMatch (fnv1a_hash s) s (V.buckets (fnv1a_hash s % V.bucket_count)) with
  | none => rfl
  | some e => rfl

theorem recordedG_add_self (V : VisitedSet) (s : List Int) (g : Int) :
    recordedG (visited_add V (fnv1a_hash s) s g) s = some g := by
  unfold recordedG visited_add
  simp only [if_pos rfl, firstMatch]
  rw [if_pos (show entry_matches ⟨fnv1a_hash s, g, s⟩ (fnv1a_hash s) s from ⟨rfl, rfl⟩)]
  rfl

theorem recordedG_add_other (V : VisitedSet) (s : List Int) (g : Int) (s' : List Int)
    (hne : s' ≠ s) :
    recordedG (visited_add V (fnv1a_hash s) s g) s' = recordedG V s' := by
  unfold recordedG visited_add
  simp only
  by_cases hb : fnv1a_hash s' % V.bucket_count = fnv1a_hash s % V.bucket_count
  · rw [if_pos hb, firstMatch,
      if_neg (show ¬entry_matches ⟨fnv1a_hash s, g, s⟩ (fnv1a_hash s') s' from
        fun hc => hne hc.2.symm), hb]
  · rw [if_neg hb]

theorem recordedG_empty (count : Nat) (s : List Int) :
    recordedG ⟨count, fun _ => []⟩ s = none := rfl

/-! ### The termination potential -/

theorem phi_congr {n : Nat} {V V' : VisitedSet}
    (h : ∀ s, recordedG V' s = recordedG V s) : phi n V' = phi n V :=
  Finset.sum_congr rfl (fun l _ => by rw [h l])

theorem phi_lt {n : Nat} {V V' : VisitedSet} {s' : List Int} (hmem : s' ∈ stateSpace n)
    (hdec : weightOf ((stateSpace n).card) (recordedG V' s') <
      weightOf ((stateSpace n).card) (recordedG V s'))
    (hsame : ∀ l, l ≠ s' → recordedG V' l = recordedG V l) :
    phi n V' < phi n V := by
  apply Finset.sum_lt_sum
  · intro i hi
    by_cases hi' : i = s'
    · subst hi'
      exact Nat.le_of_lt hdec
    · rw [hsame i hi']
  · exact ⟨s', hmem, hdec⟩

/-! ### Parent-chain accessors and per-child table-step facts -/

theorem validNode_parent {n : Nat} {start : List Int × Nat} :
    ∀ nd p : Node, validNode n start nd → nd.parent = some p →
      validNode n start p ∧
      apply_move p.state n p.blank_index nd.move = some (nd.state, nd.blank_index) ∧
      nd.g = p.g + 1
  | .mk s b g h none mv, p, hv, hp => by exact absurd hp (by simp [Node.parent])
  | .mk s b g h (some q) mv, p, hv, hp => by
    have hqp : q = p := by
      have : some q = some p := hp
      exact Option.some.inj this
    subst hqp
    exact ⟨hv.1, hv.2.1, hv.2.2.1⟩

theorem ancRec_parent {V : VisitedSet} :
    ∀ nd p : Node, ancRec V nd → nd.parent = some p → ancRec V p
  | .mk s b g h none mv, p, ha, hp => by exact absurd hp (by simp [Node.parent])
  | .mk s b g h (some q) mv, p, ha, hp => by
    have hqp : q = p := by
      have : some q = some p := hp
      exact Option.some.inj this
    subst hqp
    exact ha.2

theorem child_skip_true {V : VisitedSet} {s' : List Int} {g' : Int}
    (h : (visited_should_skip V (fnv1a_hash s') s' g').1 = true) :
    (∃ rg, recordedG V s' = some rg ∧ rg ≤ g') ∧
    (∀ l, recordedG (visited_should_skip V (fnv1a_hash s') s' g').2 l = recordedG V l) := by
  have hf := visited_should_skip_fst V s' g'
  rw [h] at hf
  constructor
  · cases hrec : recordedG V s' with
    | none => rw [hrec] at hf; simp only at hf; cases hf
    | some rg =>
      rw [hrec] at hf
      simp only at hf
      exact ⟨rg, rfl, of_decide_eq_true hf.symm⟩
  · intro l
    by_cases hl : l = s'
    · subst hl
      rw [recordedG_vss_self]
      cases hrec : recordedG V l with
      | none => rfl
      | some rg =>
        rw [hrec] at hf
        simp only at hf ⊢
        rw [if_pos (of_decide_eq_true hf.symm)]
    · exact recordedG_vss_other V s' g' l hl

theorem child_skip_false {V : VisitedSet} {s' : List Int} {g' : Int}
    (h : (visited_should_skip V (fnv1a_hash s') s' g').1 = false) :
    (recordedG V s' = none ∨ ∃ rg, recordedG V s' = some rg ∧ g' < rg) ∧
    recordedG (visited_add (visited_should_skip V (fnv1a_hash s') s' g').2
      (fnv1a_hash s') s' g') s' = some g' ∧
    (∀ l, l ≠ s' → recordedG (visited_add (visited_should_skip V (fnv1a_hash s') s' g').2
      (fnv1a_hash s') s' g') l = recordedG V l) := by
  have hf := visited_should_skip_fst V s' g'
  rw [h] at hf
  refine ⟨?_, recordedG_add_self _ s' g', ?_⟩
  · cases hrec : recordedG V s' with
    | none => exact Or.inl rfl
    | some rg =>
      rw [hrec] at hf
      simp only at hf
      refine Or.inr ⟨rg, rfl, ?_⟩
      have := of_decide_eq_false hf.symm
      omega
  · intro l hl
    rw [recordedG_add_other _ s' g' l hl]
    exact recordedG_vss_other V s' g' l hl

theorem child_step_mono {V : VisitedSet} {s' : List Int} {g' : Int}
    (h : (visited_should_skip V (fnv1a_hash s') s' g').1 = false) :
    ∀ s r, recordedG V s = some r →
      ∃ r2, recordedG (visited_add (visited_should_skip V (fnv1a_hash s') s' g').2
        (fnv1a_hash s') s' g') s = some r2 ∧ r2 ≤ r := by
  obtain ⟨hpre, hself, hother⟩ := child_skip_false h
  intro s r hr
  by_cases hs : s = s'
  · subst hs
    rcases hpre with hnone | ⟨rg, hrg, hgt⟩
    · rw [hnone] at hr; cases hr
    · rw [hrg] at hr
      cases hr
      exact ⟨g', hself, by omega⟩
  · exact ⟨r, by rw [hother s hs]; exact hr, by omega⟩

/-! ### Step equations for the expansion loop -/

theorem expandGo_nil (n : Nat) (cur : Node) (acc : List Node × VisitedSet) :
    expandGo n cur [] acc = acc := rfl

theorem expandGo_cons_pruned (n : Nat) (cur : Node) (mv : Char) (rest : List Char)
    (o : List Node) (V : VisitedSet)
    (h : cur.parent.isSome ∧ mv = opposite_move cur.move) :
    expandGo n cur (mv :: rest) (o, V) = expandGo n cur rest (o, V) := by
  simp only [expandGo, if_pos h]

theorem expandGo_cons_fail (n : Nat) (cur : Node) (mv : Char) (rest : List Char)
    (o : List Node) (V : VisitedSet)
    (h1 : ¬(cur.parent.isSome ∧ mv = opposite_move cur.move))
    (h2 : apply_move cur.state n cur.blank_index mv = none) :
    expandGo n cur (mv :: rest) (o, V) = expandGo n cur rest (o, V) := by
  simp only [expandGo, if_neg h1, h2]

theorem expandGo_cons_skip (n : Nat) (cur : Node) (mv : Char) (rest : List Char)
    (o : List Node) (V : VisitedSet) (s' : List Int) (b' : Nat)
    (h1 : ¬(cur.parent.isSome ∧ mv = opposite_move cur.move))
    (h2 : apply_move cur.state n cur.blank_index mv = some (s', b'))
    (h3 : (visited_should_skip V (fnv1a_hash s') s' (cur.g + 1)).1 = true) :
    expandGo n cur (mv :: rest) (o, V) =
      expandGo n cur rest
        (o, (visited_should_skip V (fnv1a_hash s') s' (cur.g + 1)).2) := by
  simp only [expandGo, if_neg h1, h2, h3, if_true]

theorem expandGo_cons_push (n : Nat) (cur : Node) (mv : Char) (rest : List Char)
    (o : List Node) (V : VisitedSet) (s' : List Int) (b' : Nat)
    (h1 : ¬(cur.parent.isSome ∧ mv = opposite_move cur.move))
    (h2 : apply_move cur.state n cur.blank_index mv = some (s', b'))
    (h3 : (visited_should_skip V (fnv1a_hash s') s' (cur.g + 1)).1 = false) :
    expandGo n cur (mv :: rest) (o, V) =
      expandGo n cur rest
        (heap_push o (Node.mk s' b' (cur.g + 1) (manhattan_distance s' n) (some cur) mv),
         visited_add (visited_should_skip V (fnv1a_hash s') s' (cur.g + 1)).2
           (fnv1a_hash s') s' (cur.g + 1)) := by
  simp only [expandGo, if_neg h1, h2, h3, Bool.false_eq_true, if_false]

theorem expandGo_spec {n : Nat} {start : List Int × Nat} (hok : gridOK n start)
    (hperm : start.1.Perm (goal_layout n)) {current : Node}
    (hcv : validNode n start current) (hcnd : (chainStates current).Nodup)
    (hgoal : is_goal current.state = false) :
    ∀ (moves : List Char) (open_set : List Node) (V : VisitedSet),
      ExpInv n start current moves open_set V →
      ExpInv n start current [] (expandGo n current moves (open_set, V)).1
          (expandGo n current moves (open_set, V)).2 ∧
      (expandGo n current moves (open_set, V)).1.length +
          phi n (expandGo n current moves (open_set, V)).2 ≤
        open_set.length + phi n V ∧
      (∀ nd ∈ open_set, nd ∈ (expandGo n current moves (open_set, V)).1) ∧
      (∀ s r, recordedG V s = some r →
        ∃ r2, recordedG (expandGo n current moves (open_set, V)).2 s = some r2 ∧ r2 ≤ r)
  | [], open_set, V, hinv => by
    rw [expandGo_nil]
    exact ⟨hinv, le_refl _, fun nd hnd => hnd, fun s r hr => ⟨r, hr, le_refl r⟩⟩
  | mv :: rest, open_set, V, hinv => by
    have hcok : gridOK n (nodePos current) := validNode_gridOK hok current hcv
    by_cases hpr : current.parent.isSome ∧ mv = opposite_move current.move
    · -- inverse-move pruning: state unchanged, coverage extended via the roundtrip
      rw [expandGo_cons_pruned n current mv rest open_set V hpr]
      apply expandGo_spec hok hperm hcv hcnd hgoal rest open_set V
      refine ⟨hinv.heap, hinv.valid, hinv.nodup, hinv.anc, hinv.curAnc, ?_⟩
      intro s r hr
      rcases hinv.j6 s r hr with h1 | ⟨hs, hrg, hcov⟩ | h3
      · exact Or.inl h1
      · refine Or.inr (Or.inl ⟨hs, hrg, ?_⟩)
        intro b mv' t hnin hb hbv hap
        by_cases hmv : mv' = mv
        · obtain ⟨hpsome, hopp⟩ := hpr
          obtain ⟨p, hp⟩ := Option.isSome_iff_exists.mp hpsome
          obtain ⟨hvp, happ, hgp⟩ := validNode_parent current p hcv hp
          have hpok : gridOK n (nodePos p) := validNode_gridOK hok p hvp
          have hb' : b = current.blank_index := by
            rw [hs] at hbv
            exact gridOK_blank_det hcok hb hbv
          have hround := roundtrip_restore p.state n p.blank_index current.move
            hpok.1 hpok.2.1 hpok.2.2.2 current.state current.blank_index happ
          rw [hs, hb', hmv, hopp, hround] at hap
          injection hap with hteq
          obtain ⟨rp, hrp, hrple⟩ :=
            ancRec_self p V (ancRec_parent current p hinv.curAnc hp)
          refine ⟨rp, ?_, ?_⟩
          · rw [← hteq]
            exact hrp
          · have hgc : current.g = p.g + 1 := hgp
            omega
        · exact hcov b mv' t (by simp [hmv, List.mem_cons]; intro hc; exact hnin hc) hb hbv hap
      · exact Or.inr (Or.inr h3)
    · cases h2 : apply_move current.state n current.blank_index mv with
      | none =>
        -- the move fails: nothing changes, and the failed move covers vacuously
        rw [expandGo_cons_fail n current mv rest open_set V hpr h2]
        apply expandGo_spec hok hperm hcv hcnd hgoal rest open_set V
        refine ⟨hinv.heap, hinv.valid, hinv.nodup, hinv.anc, hinv.curAnc, ?_⟩
        intro s r hr
        rcases hinv.j6 s r hr with h1 | ⟨hs, hrg, hcov⟩ | h3
        · exact Or.inl h1
        · refine Or.inr (Or.inl ⟨hs, hrg, ?_⟩)
          intro b mv' t hnin hb hbv hap
          by_cases hmv : mv' = mv
          · have hb' : b = current.blank_index := by
              rw [hs] at hbv
              exact gridOK_blank_det hcok hb hbv
            rw [hs, hb', hmv, h2] at hap
            cases hap
          · exact hcov b mv' t (by simp [hmv, List.mem_cons]; intro hc; exact hnin hc)
              hb hbv hap
        · exact Or.inr (Or.inr h3)
      | some sb =>
        obtain ⟨s', b'⟩ := sb
        cases h3 : (visited_should_skip V (fnv1a_hash s') s' (current.g + 1)).1 with
        | true =>
          -- already recorded at least as cheaply: table values unchanged
          rw [expandGo_cons_skip n current mv rest open_set V s' b' hpr h2 h3]
          obtain ⟨⟨rg, hrg, hrgle⟩, hsame⟩ := child_skip_true h3
          have hmono : ∀ s r, recordedG V s = some r →
              ∃ r2, recordedG (visited_should_skip V (fnv1a_hash s') s'
                (current.g + 1)).2 s = some r2 ∧ r2 ≤ r :=
            fun s r hr => ⟨r, by rw [hsame s]; exact hr, le_refl r⟩
          have hphi : phi n (visited_should_skip V (fnv1a_hash s') s'
              (current.g + 1)).2 = phi n V := phi_congr hsame
          have hrec := expandGo_spec hok hperm hcv hcnd hgoal rest open_set
            (visited_should_skip V (fnv1a_hash s') s' (current.g + 1)).2
            ⟨hinv.heap, hinv.valid, hinv.nodup,
             fun nd hnd => ancRec_mono hmono nd (hinv.anc nd hnd),
             ancRec_mono hmono current hinv.curAnc, ?_⟩
          · refine ⟨hrec.1, ?_, hrec.2.2.1, ?_⟩
            · calc (expandGo n current rest (open_set, _)).1.length +
                    phi n (expandGo n current rest (open_set, _)).2 ≤
                  open_set.length + phi n (visited_should_skip V (fnv1a_hash s') s'
                    (current.g + 1)).2 := hrec.2.1
                _ = open_set.length + phi n V := by rw [hphi]
            · intro s r hr
              obtain ⟨r2, hr2, hle2⟩ := hrec.2.2.2 s r (by rw [hsame s]; exact hr)
              exact ⟨r2, hr2, hle2⟩
          · intro s r hr
            rw [hsame s] at hr
            rcases hinv.j6 s r hr with h1 | ⟨hs, hrq, hcov⟩ | ⟨hig, hcov⟩
            · exact Or.inl h1
            · refine Or.inr (Or.inl ⟨hs, hrq, ?_⟩)
              intro b mv' t hnin hb hbv hap
              by_cases hmv : mv' = mv
              · have hb' : b = current.blank_index := by
                  rw [hs] at hbv
                  exact gridOK_blank_det hcok hb hbv
                rw [hs, hb', hmv, h2] at hap
                injection hap with hteq
                refine ⟨rg, ?_, ?_⟩
                · rw [← hteq, hsame]
                  exact hrg
                · omega
              · obtain ⟨r', hr', hle'⟩ := hcov b mv' t
                  (by simp [hmv, List.mem_cons]; intro hc; exact hnin hc) hb hbv hap
                exact ⟨r', by rw [hsame]; exact hr', hle'⟩
            · refine Or.inr (Or.inr ⟨hig, ?_⟩)
              intro b mv' t hb hbv hap
              obtain ⟨r', hr', hle'⟩ := hcov b mv' t hb hbv hap
              exact ⟨r', by rw [hsame]; exact hr', hle'⟩
        | false =>
          -- fresh or cheaper: push the child and record its grid at its g
          rw [expandGo_cons_push n current mv rest open_set V s' b' hpr h2 h3]
          obtain ⟨hpre, hself, hother⟩ := child_skip_false h3
          have hmono := child_step_mono h3
          have hchildvalid : validNode n start
              (Node.mk s' b' (current.g + 1) (manhattan_distance s' n)
                (some current) mv) := ⟨hcv, h2, rfl, rfl⟩
          have hchildok : gridOK n (s', b') := gridOK_step hcok h2
          have hne : s' ≠ current.state := apply_move_grid_ne hcok h2
          have hchain : chainStates (Node.mk s' b' (current.g + 1)
              (manhattan_distance s' n) (some current) mv) =
              (s', b') :: chainStates current := rfl
          have hnotmem : (s', b') ∉ chainStates current := by
            intro hmem
            obtain ⟨rc2, hrc2, hrc2le⟩ :=
              chain_recorded_le current hcv hinv.curAnc (s', b') hmem
            rcases hpre with hnone | ⟨rg, hrg, hgt⟩
            · rw [hnone] at hrc2
              cases hrc2
            · rw [hrg] at hrc2
              injection hrc2 with he
              omega
          have hchildnodup : (chainStates (Node.mk s' b' (current.g + 1)
              (manhattan_distance s' n) (some current) mv)).Nodup := by
            rw [hchain]
            exact List.nodup_cons.mpr ⟨hnotmem, hcnd⟩
          obtain ⟨hpperm, hpinv⟩ := heap_push_spec open_set
            (Node.mk s' b' (current.g + 1) (manhattan_distance s' n)
              (some current) mv) hinv.heap
          have hmem' : ∀ nd, nd ∈ heap_push open_set (Node.mk s' b' (current.g + 1)
              (manhattan_distance s' n) (some current) mv) ↔
              nd = Node.mk s' b' (current.g + 1) (manhattan_distance s' n)
                (some current) mv ∨ nd ∈ open_set := by
            intro nd
            rw [hpperm.mem_iff, List.mem_cons]
          have hgc0 : 0 ≤ current.g := validNode_g_nonneg current hcv
          have hchildanc : ancRec (visited_add (visited_should_skip V (fnv1a_hash s') s'
              (current.g + 1)).2 (fnv1a_hash s') s' (current.g + 1))
              (Node.mk s' b' (current.g + 1) (manhattan_distance s' n)
                (some current) mv) :=
            ⟨⟨current.g + 1, hself, le_refl _⟩, ancRec_mono hmono current hinv.curAnc⟩
          have hrec := expandGo_spec hok hperm hcv hcnd hgoal rest
            (heap_push open_set (Node.mk s' b' (current.g + 1)
              (manhattan_distance s' n) (some current) mv))
            (visited_add (visited_should_skip V (fnv1a_hash s') s'
              (current.g + 1)).2 (fnv1a_hash s') s' (current.g + 1)) ?_
          · refine ⟨hrec.1, ?_, ?_, ?_⟩
            · -- the push costs one open slot, the fresh record repays it from phi
              have hlen' : (heap_push open_set (Node.mk s' b' (current.g + 1)
                  (manhattan_distance s' n) (some current) mv)).length =
                  open_set.length + 1 := by
                rw [hpperm.length_eq]
                simp
              have hphidec : phi n (visited_add (visited_should_skip V (fnv1a_hash s')
                  s' (current.g + 1)).2 (fnv1a_hash s') s' (current.g + 1)) <
                  phi n V := by
                refine @phi_lt n V _ s' ?_ ?_ ?_
                · apply mem_stateSpace
                  have hp1 : s'.Perm current.state :=
                    apply_move_perm hcok.2.1 hcok.1 hcok.2.2.2 h2
                  have hp2 : current.state.Perm start.1 :=
                    validNode_chain_perm hok current hcv (nodePos current)
                      (nodePos_mem_chainStates current)
                  exact (hp1.trans hp2).trans hperm
                · rw [hself]
                  have hchainlen := chainStates_length (Node.mk s' b' (current.g + 1)
                    (manhattan_distance s' n) (some current) mv)
                  have hgchain := validNode_g_eq_chain _ hchildvalid
                  have hcard := chain_length_le_card hok hperm _ hchildvalid hchildnodup
                  rcases hpre with hnone | ⟨rg, hrg, hgt⟩
                  · rw [hnone]
                    show (current.g + 1).toNat + 1 < (stateSpace n).card + 1
                    have : (chainMoves (Node.mk s' b' (current.g + 1)
                        (manhattan_distance s' n) (some current) mv)).length =
                        (current.g + 1).toNat := by
                      have hg' : (Node.mk s' b' (current.g + 1)
                          (manhattan_distance s' n) (some current) mv).g =
                          current.g + 1 := rfl
                      rw [hg'] at hgchain
                      omega
                    omega
                  · rw [hrg]
                    show (current.g + 1).toNat + 1 < rg.toNat + 1
                    omega
                · exact hother
              have hcomp := hrec.2.1
              rw [hlen'] at hcomp
              omega
            · intro nd hnd
              exact hrec.2.2.1 nd ((hmem' nd).mpr (Or.inr hnd))
            · intro s r hr
              obtain ⟨r2, hr2, hle2⟩ := hmono s r hr
              obtain ⟨r3, hr3, hle3⟩ := hrec.2.2.2 s r2 hr2
              exact ⟨r3, hr3, by omega⟩
          · refine ⟨hpinv, ?_, ?_, ?_, ancRec_mono hmono current hinv.curAnc, ?_⟩
            · intro nd hnd
              rcases (hmem' nd).mp hnd with rfl | hnd'
              · exact hchildvalid
              · exact hinv.valid nd hnd'
            · intro nd hnd
              rcases (hmem' nd).mp hnd with rfl | hnd'
              · exact hchildnodup
              · exact hinv.nodup nd hnd'
            · intro nd hnd
              rcases (hmem' nd).mp hnd with rfl | hnd'
              · exact hchildanc
              · exact ancRec_mono hmono nd (hinv.anc nd hnd')
            · intro s r hr
              by_cases hs : s = s'
              · subst hs
                rw [hself] at hr
                injection hr with hre
                refine Or.inl ⟨Node.mk s b' (current.g + 1)
                  (manhattan_distance s n) (some current) mv,
                  (hmem' _).mpr (Or.inl rfl), rfl, ?_⟩
                show current.g + 1 ≤ r
                omega
              · rw [hother s hs] at hr
                rcases hinv.j6 s r hr with ⟨nd, hnd, hst, hgle⟩ | ⟨hs2, hrq, hcov⟩ |
                    ⟨hig, hcov⟩
                · exact Or.inl ⟨nd, (hmem' nd).mpr (Or.inr hnd), hst, hgle⟩
                · refine Or.inr (Or.inl ⟨hs2, hrq, ?_⟩)
                  intro b mv' t hnin hb hbv hap
                  by_cases hmv : mv' = mv
                  · have hb' : b = current.blank_index := by
                      rw [hs2] at hbv
                      exact gridOK_blank_det hcok hb hbv
                    rw [hs2, hb', hmv, h2] at hap
                    injection hap with hteq
                    refine ⟨current.g + 1, ?_, ?_⟩
                    · rw [← hteq]
                      exact hself
                    · omega
                  · obtain ⟨r', hr', hle'⟩ := hcov b mv' t
                      (by simp [hmv, List.mem_cons]; intro hc; exact hnin hc) hb hbv hap
                    obtain ⟨r2, hr2, hle2⟩ := hmono t.1 r' hr'
                    exact ⟨r2, hr2, by omega⟩
                · refine Or.inr (Or.inr ⟨hig, ?_⟩)
                  intro b mv' t hb hbv hap
                  obtain ⟨r', hr', hle'⟩ := hcov b mv' t hb hbv hap
                  obtain ⟨r2, hr2, hle2⟩ := hmono t.1 r' hr'
                  exact ⟨r2, hr2, by omega⟩

theorem heap_le_of_not_less {a b : Node} (h : heap_less a b = false) :
    node_priority b ≤ node_priority a := by
  simp only [heap_less, Bool.or_eq_false_iff, decide_eq_false_iff_not] at h
  have h1 := h.1
  omega

theorem solveLoop_succ (n fuel : Nat) (open_set : List Node) (visited : VisitedSet) :
    solveLoop n (fuel + 1) open_set visited =
      match heap_pop open_set with
      | (none, _) => .noSolution
      | (some current, rest) =>
        if is_goal current.state then .found current
        else
          solveLoop n fuel (expandGo n current ['U', 'D', 'L', 'R'] (rest, visited)).1
            (expandGo n current ['U', 'D', 'L', 'R'] (rest, visited)).2 := rfl

theorem runMoves_split {n : Nat} {start t : List Int × Nat} {ms : List Char}
    (h : runMoves n start ms = some t) (i : Nat) :
    ∃ c, runMoves n start (ms.take i) = some c ∧ runMoves n c (ms.drop i) = some t := by
  have happ := runMoves_append n (ms.take i) (ms.drop i) start
  rw [List.take_append_drop, h] at happ
  cases hc : runMoves n start (ms.take i) with
  | none =>
    rw [hc] at happ
    simp only at happ
    cases happ
  | some c =>
    rw [hc] at happ
    simp only at happ
    exact ⟨c, rfl, happ.symm⟩

theorem frontier_chain {n : Nat} {start : List Int × Nat} {ms0 : List Char}
    {open_set : List Node} {V : VisitedSet}
    (hok : gridOK n start) (hn : 0 < n)
    (hrun : runMoves n start ms0 = some (goal_layout n, n * n - 1))
    (inv : Inv n start open_set V) :
    ∀ k i, i ≤ ms0.length → ms0.length - i ≤ k →
      (∃ c ri, runMoves n start (ms0.take i) = some c ∧
        recordedG V c.1 = some ri ∧ ri ≤ (i : Int)) →
      ∃ j c nd, j ≤ ms0.length ∧ runMoves n start (ms0.take j) = some c ∧
        nd ∈ open_set ∧ nd.state = c.1 ∧ nd.g ≤ (j : Int)
  | 0, i, hi, hk, ⟨c, ri, hc, hri, hrile⟩ => by
    rcases inv.j6 c.1 ri hri with ⟨nd, hnd, hst, hgle⟩ | ⟨hig, hcov⟩
    · exact ⟨i, c, nd, hi, hc, hnd, hst, by omega⟩
    · exfalso
      have hieq : i = ms0.length := by omega
      subst hieq
      rw [List.take_length, hrun] at hc
      injection hc with hce
      rw [← hce] at hig
      have hig' : is_goal (goal_layout n) = false := hig
      rw [is_goal_goal_layout n hn] at hig'
      cases hig'
  | k + 1, i, hi, hk, ⟨c, ri, hc, hri, hrile⟩ => by
    rcases inv.j6 c.1 ri hri with ⟨nd, hnd, hst, hgle⟩ | ⟨hig, hcov⟩
    · exact ⟨i, c, nd, hi, hc, hnd, hst, by omega⟩
    · by_cases hieq : i = ms0.length
      · exfalso
        subst hieq
        rw [List.take_length, hrun] at hc
        injection hc with hce
        rw [← hce] at hig
        have hig' : is_goal (goal_layout n) = false := hig
        rw [is_goal_goal_layout n hn] at hig'
        cases hig'
      · have hilt : i < ms0.length := by omega
        obtain ⟨c2, hc2, hd2⟩ := runMoves_split hrun i
        rw [hc] at hc2
        injection hc2 with hc2e
        subst hc2e
        rw [List.drop_eq_getElem_cons hilt] at hd2
        have hcok : gridOK n c := gridOK_run (ms0.take i) start c hok hc
        have hone : runMoves n c (ms0[i] :: ms0.drop (i + 1)) =
            (match apply_move c.1 n c.2 ms0[i] with
             | none => none
             | some s' => runMoves n s' (ms0.drop (i + 1))) := rfl
        rw [hone] at hd2
        cases hap : apply_move c.1 n c.2 ms0[i] with
        | none =>
          rw [hap] at hd2
          cases hd2
        | some u =>
          rw [hap] at hd2
          simp only at hd2
          obtain ⟨r', hr', hrle'⟩ := hcov c.2 ms0[i] u hcok.2.1 hcok.2.2.2 hap
          have htake : runMoves n start (ms0.take (i + 1)) = some u := by
            rw [List.take_succ, List.getElem?_eq_getElem hilt]
            show runMoves n start (ms0.take i ++ [ms0[i]]) = some u
            rw [runMoves_append, hc]
            show runMoves n c [ms0[i]] = some u
            rw [runMoves_singleton]
            exact hap
          exact frontier_chain hok hn hrun inv k (i + 1) (by omega) (by omega)
            ⟨u, r', htake, hr', by push_cast; omega⟩

theorem not_mem_UDLR {mv : Char} (h : mv ∉ (['U', 'D', 'L', 'R'] : List Char)) :
    mv ≠ 'U' ∧ mv ≠ 'D' ∧ mv ≠ 'L' ∧ mv ≠ 'R' := by
  simp only [List.mem_cons, List.mem_singleton, not_or] at h
  exact ⟨h.1, h.2.1, h.2.2.1, h.2.2.2.1⟩

theorem solveLoop_finds {n : Nat} {start : List Int × Nat} {ms0 : List Char}
    (hok : gridOK n start) (hn : 0 < n)
    (hperm : start.1.Perm (goal_layout n))
    (hrun : runMoves n start ms0 = some (goal_layout n, n * n - 1))
    (hmin : ∀ ms, runMoves n start ms = some (goal_layout n, n * n - 1) →
      ms0.length ≤ ms.length) :
    ∀ (M : Nat) (open_set : List Node) (V : VisitedSet), Inv n start open_set V →
      open_set.length + phi n V ≤ M →
      ∃ fuel gnd, solveLoop n fuel open_set V = .found gnd ∧
        validNode n start gnd ∧ nodePos gnd = (goal_layout n, n * n - 1) ∧
        gnd.g = (ms0.length : Int)
  | 0, open_set, V, inv, hM => by
    exfalso
    obtain ⟨r0, hr0, hr0le⟩ := inv.startRec
    obtain ⟨j, c, nd, hj, hcj, hndmem, hndst, hndg⟩ :=
      frontier_chain hok hn hrun inv ms0.length 0 (Nat.zero_le _) (by omega)
        ⟨start, r0, by rw [List.take_zero]; exact runMoves_nil n start,
          hr0, by push_cast; omega⟩
    have hemp : open_set = [] := List.length_eq_zero.mp (by omega)
    rw [hemp] at hndmem
    exact absurd hndmem (List.not_mem_nil nd)
  | M + 1, open_set, V, inv, hM => by
    obtain ⟨r0, hr0, hr0le⟩ := inv.startRec
    obtain ⟨j, c, nd, hj, hcj, hndmem, hndst, hndg⟩ :=
      frontier_chain hok hn hrun inv ms0.length 0 (Nat.zero_le _) (by omega)
        ⟨start, r0, by rw [List.take_zero]; exact runMoves_nil n start,
          hr0, by push_cast; omega⟩
    have hne : open_set ≠ [] := by
      intro he
      rw [he] at hndmem
      exact absurd hndmem (List.not_mem_nil nd)
    obtain ⟨top, rest, hpop⟩ := heap_pop_some open_set hne
    obtain ⟨hpopperm, hrestinv, hpopmin⟩ := heap_pop_spec open_set inv.heap top rest hpop
    have htopmem : top ∈ open_set := hpopperm.mem_iff.mp (List.mem_cons_self top rest)
    have hvtop := inv.valid top htopmem
    cases hgo : is_goal top.state with
    | true =>
      have htopok := validNode_gridOK hok top hvtop
      have hgoalpos : nodePos top = (goal_layout n, n * n - 1) :=
        gridOK_goal_blank htopok hgo
      have hrun2 := validNode_run top hvtop
      rw [hgoalpos] at hrun2
      have hged := hmin _ hrun2
      rw [List.length_reverse] at hged
      have hgchain := validNode_g_eq_chain top hvtop
      have hple := heap_le_of_not_less (hpopmin nd hndmem)
      have htoph : top.hval = manhattan_distance top.state n := validNode_hval top hvtop
      have htopstate : top.state = goal_layout n := congrArg Prod.fst hgoalpos
      have hndh : nd.hval = manhattan_distance nd.state n :=
        validNode_hval nd (inv.valid nd hndmem)
      have hcok2 : gridOK n c := gridOK_run _ _ _ hok hcj
      obtain ⟨c2, hc2, hd2⟩ := runMoves_split hrun j
      rw [hcj] at hc2
      injection hc2 with hc2e
      subst hc2e
      have hcons := manhattan_run_le (ms0.drop j) c (goal_layout n, n * n - 1) hcok2 hd2
      have hmg : manhattan_distance (goal_layout n, n * n - 1).1 n = 0 :=
        manhattan_goal_layout n
      rw [hmg, List.length_drop, Nat.cast_sub hj] at hcons
      have e1 : node_priority top = top.g := by
        unfold node_priority
        rw [htoph, htopstate, manhattan_goal_layout n]
        ring
      have e2 : node_priority nd = nd.g + manhattan_distance c.1 n := by
        unfold node_priority
        rw [hndh, hndst]
      rw [e1, e2] at hple
      have hgle2 : top.g ≤ (ms0.length : Int) := by omega
      have hgeq : top.g = (ms0.length : Int) := by omega
      refine ⟨1, top, ?_, hvtop, hgoalpos, hgeq⟩
      show solveLoop n 1 open_set V = .found top
      rw [show (1 : Nat) = 0 + 1 from rfl, solveLoop_succ, hpop]
      simp only [hgo, if_true]
    | false =>
      have hcnd := inv.nodup top htopmem
      have hrestmem : ∀ x ∈ rest, x ∈ open_set := fun x hx =>
        hpopperm.mem_iff.mp (List.mem_cons_of_mem top hx)
      have hexp : ExpInv n start top ['U', 'D', 'L', 'R'] rest V := by
        refine ⟨hrestinv, fun x hx => inv.valid x (hrestmem x hx),
          fun x hx => inv.nodup x (hrestmem x hx),
          fun x hx => inv.anc x (hrestmem x hx), inv.anc top htopmem, ?_⟩
        intro s r hr
        rcases inv.j6 s r hr with ⟨nd2, hnd2, hst2, hgle2⟩ | ⟨hig, hcov⟩
        · have hnd2c : nd2 ∈ top :: rest := hpopperm.mem_iff.mpr hnd2
          rcases List.mem_cons.mp hnd2c with rfl | hmr
          · obtain ⟨rc, hrc, hrcle⟩ := ancRec_self nd2 V (inv.anc nd2 htopmem)
            rw [hst2, hr] at hrc
            injection hrc with hrceq
            refine Or.inr (Or.inl ⟨hst2.symm, by omega, ?_⟩)
            intro b mv t hnin hb hbv hap
            exfalso
            obtain ⟨m1, m2, m3, m4⟩ := not_mem_UDLR hnin
            rw [apply_move_other s n b mv m1 m2 m3 m4] at hap
            cases hap
          · exact Or.inl ⟨nd2, hmr, hst2, hgle2⟩
        · exact Or.inr (Or.inr ⟨hig, hcov⟩)
      obtain ⟨hfin, hmeas, hmemf, hmonof⟩ := expandGo_spec hok hperm hvtop hcnd hgo
        ['U', 'D', 'L', 'R'] rest V hexp
      have hinv' : Inv n start (expandGo n top ['U', 'D', 'L', 'R'] (rest, V)).1
          (expandGo n top ['U', 'D', 'L', 'R'] (rest, V)).2 := by
        refine ⟨hfin.heap, hfin.valid, hfin.nodup, hfin.anc, ?_, ?_⟩
        · obtain ⟨r2, hr2, hle2⟩ := hmonof start.1 r0 hr0
          exact ⟨r2, hr2, by omega⟩
        · intro s r hr
          rcases hfin.j6 s r hr with h1 | ⟨hs, hrq, hcov⟩ | h3
          · exact Or.inl h1
          · refine Or.inr ⟨by rw [hs]; exact hgo, ?_⟩
            intro b mv t hb hbv hap
            exact hcov b mv t (List.not_mem_nil mv) hb hbv hap
          · exact Or.inr h3
      have hlenrest : rest.length + 1 = open_set.length := by
        have := hpopperm.length_eq
        simpa using this
      have hM' : (expandGo n top ['U', 'D', 'L', 'R'] (rest, V)).1.length +
          phi n (expandGo n top ['U', 'D', 'L', 'R'] (rest, V)).2 ≤ M := by
        omega
      obtain ⟨fuel, gnd, hfound, hgv, hgp, hgg⟩ :=
        solveLoop_finds hok hn hperm hrun hmin M _ _ hinv' hM'
      refine ⟨fuel + 1, gnd, ?_, hgv, hgp, hgg⟩
      rw [solveLoop_succ, hpop]
      simp only [hgo, Bool.false_eq_true, if_false]
      exact hfound

/-- C1: for every solvable input grid (a permutation grid with exactly one
blank from which the goal layout is reachable, `ms0` being a shortest
solving move sequence), the A* search of `solve_puzzle` terminates having
found the goal: for sufficient fuel it returns a goal node, and the move
sequence reconstructed from that node both solves the puzzle and has
length exactly the shortest-path distance `ms0.length`. -/
theorem solve_puzzle_optimal (n : Nat) (start : List Int) (blank : Nat) (ms0 : List Char)
    (hlen : start.length = n * n) (hb : blank < n * n)
    (hblank : start.getD blank 0 = -1) (hcount : start.count (-1) = 1)
    (hrun : runMoves n (start, blank) ms0 = some (goal_layout n, n * n - 1))
    (hmin : ∀ ms, runMoves n (start, blank) ms = some (goal_layout n, n * n - 1) →
      ms0.length ≤ ms.length) :
    ∃ fuel gnd, solve_puzzle start n blank fuel = .found gnd ∧
      is_goal gnd.state = true ∧
      runMoves n (start, blank) (reconstruct_moves gnd) =
        some (goal_layout n, n * n - 1) ∧
      (reconstruct_moves gnd).length = ms0.length := by
  have hn : 0 < n := Nat.pos_of_ne_zero (by rintro rfl; simp at hb)
  have hok : gridOK n (start, blank) := ⟨hlen, hb, hcount, hblank⟩
  have hperm : start.Perm (goal_layout n) :=
    (runMoves_perm ms0 (start, blank) (goal_layout n, n * n - 1) hok hrun).symm
  have hopen : heap_push [] (Node.mk start blank 0 (manhattan_distance start n)
      none (Char.ofNat 0)) = [Node.mk start blank 0 (manhattan_distance start n)
      none (Char.ofNat 0)] := rfl
  have hinit : Inv n (start, blank)
      [Node.mk start blank 0 (manhattan_distance start n) none (Char.ofNat 0)]
      (visited_add ⟨1048576, fun _ => []⟩ (fnv1a_hash start) start 0) := by
    refine ⟨heapInv_singleton _, ?_, ?_, ?_, ?_, ?_⟩
    · intro nd hnd
      rw [List.mem_singleton] at hnd
      subst hnd
      exact ⟨rfl, rfl, rfl⟩
    · intro nd hnd
      rw [List.mem_singleton] at hnd
      subst hnd
      show ([(start, blank)] : List (List Int × Nat)).Nodup
      exact List.nodup_singleton _
    · intro nd hnd
      rw [List.mem_singleton] at hnd
      subst hnd
      exact ⟨0, recordedG_add_self _ _ _, le_refl 0⟩
    · exact ⟨0, recordedG_add_self _ _ _, le_refl 0⟩
    · intro s r hr
      by_cases hs : s = start
      · subst hs
        rw [recordedG_add_self] at hr
        injection hr with hre
        exact Or.inl ⟨Node.mk s blank 0 (manhattan_distance s n) none (Char.ofNat 0),
          List.mem_singleton.mpr rfl, rfl, by show (0 : Int) ≤ r; omega⟩
      · rw [recordedG_add_other _ _ _ _ hs, recordedG_empty] at hr
        cases hr
  obtain ⟨fuel, gnd, hfound, hgv, hgp, hgg⟩ := solveLoop_finds hok hn hperm hrun hmin
    ([Node.mk start blank 0 (manhattan_distance start n) none (Char.ofNat 0)].length +
      phi n (visited_add ⟨1048576, fun _ => []⟩ (fnv1a_hash start) start 0))
    [Node.mk start blank 0 (manhattan_distance start n) none (Char.ofNat 0)]
    (visited_add ⟨1048576, fun _ => []⟩ (fnv1a_hash start) start 0)
    hinit (le_refl _)
  refine ⟨fuel, gnd, ?_, ?_, ?_, ?_⟩
  · show solveLoop n fuel (heap_push [] (Node.mk start blank 0
        (manhattan_distance start n) none (Char.ofNat 0)))
      (visited_add ⟨1048576, fun _ => []⟩ (fnv1a_hash start) start 0) = .found gnd
    rw [hopen]
    exact hfound
  · have hst : gnd.state = goal_layout n := congrArg Prod.fst hgp
    rw [hst]
    exact is_goal_goal_layout n hn
  · have hr2 := validNode_run gnd hgv
    rw [hgp] at hr2
    exact hr2
  · have h1 := validNode_g_eq_chain gnd hgv
    rw [hgg] at h1
    have h2 : (chainMoves gnd).length = ms0.length := by exact_mod_cast h1
    show (chainMoves gnd).reverse.length = ms0.length
    rw [List.length_reverse]
    exact h2

/-- Witness for C1 at the already solved 2×2 grid, whose shortest solving
sequence is the empty one. -/
theorem solve_puzzle_optimal_witness :
    ∃ fuel gnd, solve_puzzle [0, 1, 2, -1] 2 3 fuel = .found gnd ∧
      is_goal gnd.state = true ∧
      runMoves 2 ([0, 1, 2, -1], 3) (reconstruct_moves gnd) =
        some (goal_layout 2, 2 * 2 - 1) ∧
      (reconstruct_moves gnd).length = ([] : List Char).length :=
  solve_puzzle_optimal 2 [0, 1, 2, -1] 3 []
    (by decide) (by decide) (by decide) (by decide) (by decide)
    (fun ms _ => Nat.zero_le ms.length)

end Puzzle
